import Mathlib

/-!
Verification of the CRDT core of the silent-crdt repository.

The Rust sources (src/crdt.rs, src/sync.rs, src/api.rs) are shallowly
embedded below.  Rust `HashMap<String, V>` values are modelled as
association lists kept sorted by key in strictly ascending order (the
canonical representative of the map's content; `HashMap` equality in Rust
is content equality, and every hash computation in the source sorts the
entries by key before use).  `HashSet<String>` is modelled likewise as a
strictly sorted list of strings.  Rust `u64` counters are modelled as
`Nat` (overflow panics in checked builds and is outside the modelled
behaviour; the 8-byte little-endian encodings used by the digests reduce
modulo `2 ^ 64` exactly as `to_le_bytes` does) and `i64` timestamps as
`Int` with two's-complement little-endian encoding.  Rust string
comparison is byte-wise lexicographic, which coincides with Lean's
`String` order because UTF-8 is order preserving.
-/

/-- Bytes are natural numbers below 256. -/
abbrev Byte := Nat

/-- UTF-8 encoding of one code point. -/
def charUtf8 (n : Nat) : List Byte :=
  if n < 128 then [n]
  else if n < 2048 then [192 + n / 64, 128 + n % 64]
  else if n < 65536 then [224 + n / 4096, 128 + n / 64 % 64, 128 + n % 64]
  else [240 + n / 262144, 128 + n / 4096 % 64, 128 + n / 64 % 64, 128 + n % 64]

/-- UTF-8 bytes of a string, as used by `str::as_bytes` in the source. -/
def strBytes (s : String) : List Byte :=
  s.data.flatMap (fun c => charUtf8 c.toNat)

/-- Model of `u64::to_le_bytes`: 8 little-endian bytes of `n` modulo `2 ^ 64`. -/
def le8 (n : Nat) : List Byte :=
  (List.range 8).map (fun i => n / 256 ^ i % 256)

/-- Model of `i64::to_le_bytes`: two's-complement 8-byte little-endian encoding. -/
def le8Int (t : Int) : List Byte :=
  le8 (t.emod (2 ^ 64)).toNat

/-- Hex digit character for a value below 16 (lowercase, as `hex::encode`). -/
def hexDigit (n : Nat) : Char :=
  if n < 10 then Char.ofNat (48 + n) else Char.ofNat (87 + n)

/-- Lowercase hex encoding of a byte list, as `hex::encode` in the source. -/
def hexEncode (bs : List Byte) : String :=
  String.mk (bs.foldr (fun b acc => hexDigit (b / 16) :: hexDigit (b % 16) :: acc) [])

/-! ### SHA-256 (FIPS 180-4), over byte lists -/

/-- Reduce modulo `2 ^ 32`. -/
def m32 (n : Nat) : Nat := n % 4294967296

/-- Addition modulo `2 ^ 32`. -/
def add32 (a b : Nat) : Nat := m32 (a + b)

/-- Right rotation of a 32-bit word. -/
def rotr32 (n k : Nat) : Nat :=
  m32 ((n >>> k) ||| (n <<< (32 - k)))

/-- Complement of a 32-bit word. -/
def not32 (n : Nat) : Nat := Nat.xor n 4294967295

/-- SHA-256 `Ch` function. -/
def shch (x y z : Nat) : Nat := Nat.xor (Nat.land x y) (Nat.land (not32 x) z)

/-- SHA-256 `Maj` function. -/
def shmaj (x y z : Nat) : Nat :=
  Nat.xor (Nat.xor (Nat.land x y) (Nat.land x z)) (Nat.land y z)

/-- SHA-256 big sigma 0. -/
def bsig0 (x : Nat) : Nat := Nat.xor (Nat.xor (rotr32 x 2) (rotr32 x 13)) (rotr32 x 22)

/-- SHA-256 big sigma 1. -/
def bsig1 (x : Nat) : Nat := Nat.xor (Nat.xor (rotr32 x 6) (rotr32 x 11)) (rotr32 x 25)

/-- SHA-256 small sigma 0. -/
def ssig0 (x : Nat) : Nat := Nat.xor (Nat.xor (rotr32 x 7) (rotr32 x 18)) (x >>> 3)

/-- SHA-256 small sigma 1. -/
def ssig1 (x : Nat) : Nat := Nat.xor (Nat.xor (rotr32 x 17) (rotr32 x 19)) (x >>> 10)

/-- The 64 SHA-256 round constants. -/
def shaK : List Nat :=
  [1116352408, 1899447441, 3049323471, 3921009573, 961987163, 1508970993,
   2453635748, 2870763221, 3624381080, 310598401, 607225278, 1426881987,
   1925078388, 2162078206, 2614888103, 3248222580, 3835390401, 4022224774,
   264347078, 604807628, 770255983, 1249150122, 1555081692, 1996064986,
   2554220882, 2821834349, 2952996808, 3210313671, 3336571891, 3584528711,
   113926993, 338241895, 666307205, 773529912, 1294757372, 1396182291,
   1695183700, 1986661051, 2177026350, 2456956037, 2730485921, 2820302411,
   3259730800, 3345764771, 3516065817, 3600352804, 4094571909, 275423344,
   430227734, 506948616, 659060556, 883997877, 958139571, 1322822218,
   1537002063, 1747873779, 1955562222, 2024104815, 2227730452, 2361852424,
   2428436474, 2756734187, 3204031479, 3329325298]

/-- Initial SHA-256 hash state. -/
def shaH0 : List Nat :=
  [1779033703, 3144134277, 1013904242, 2773480762,
   1359893119, 2600822924, 528734635, 1541459225]

/-- Big-endian 8-byte encoding (for the padded bit length). -/
def be8 (n : Nat) : List Byte :=
  (List.range 8).map (fun i => n / 256 ^ (7 - i) % 256)

/-- Big-endian 4-byte encoding of a 32-bit word. -/
def be4 (n : Nat) : List Byte :=
  [n / 16777216 % 256, n / 65536 % 256, n / 256 % 256, n % 256]

/-- SHA-256 message padding. -/
def shaPad (msg : List Byte) : List Byte :=
  msg ++ 128 :: List.replicate ((119 - msg.length % 64) % 64) 0 ++ be8 (8 * msg.length)

/-- Split a byte list into chunks of 64, driven by explicit fuel. -/
def chunks64 : Nat → List Byte → List (List Byte)
  | 0, _ => []
  | _, [] => []
  | fuel + 1, l => l.take 64 :: chunks64 fuel (l.drop 64)

/-- Combine groups of four bytes into big-endian 32-bit words. -/
def bytesToWords : List Byte → List Nat
  | b0 :: b1 :: b2 :: b3 :: rest => (((b0 * 256 + b1) * 256 + b2) * 256 + b3) :: bytesToWords rest
  | _ => []

/-- Extend the 16 block words to the 64-entry message schedule. -/
def shaSchedule : Nat → List Nat → List Nat
  | 0, w => w
  | n + 1, w =>
    let t := add32 (add32 (ssig1 (w.getD (w.length - 2) 0)) (w.getD (w.length - 7) 0))
      (add32 (ssig0 (w.getD (w.length - 15) 0)) (w.getD (w.length - 16) 0))
    shaSchedule n (w ++ [t])

/-- One SHA-256 round on the working variables. -/
def shaRound (st : List Nat) (kw : Nat × Nat) : List Nat :=
  match st with
  | [a, b, c, d, e, f, g, h] =>
    let t1 := add32 (add32 (add32 h (bsig1 e)) (add32 (shch e f g) kw.1)) kw.2
    let t2 := add32 (bsig0 a) (shmaj a b c)
    [add32 t1 t2, a, b, c, add32 d t1, e, f, g]
  | other => other

/-- Compress one 64-byte block into the running hash state. -/
def shaCompress (h : List Nat) (block : List Byte) : List Nat :=
  let w := shaSchedule 48 (bytesToWords block)
  let st := (shaK.zip w).foldl shaRound h
  (h.zip st).map (fun p => add32 p.1 p.2)

/-- SHA-256 digest of a byte list, as 32 bytes. -/
def sha256 (msg : List Byte) : List Byte :=
  let padded := shaPad msg
  let final := (chunks64 padded.length padded).foldl shaCompress shaH0
  final.flatMap be4

/-! ### A kernel-evaluable decision procedure for the string order

Rust compares `String`s byte-wise; Lean's `String` order is codepoint
lexicographic, and UTF-8 is order preserving, so the two agree.  The core
decision procedure `String.ltb` does not reduce inside the kernel, so an
equivalent structural one is installed here with higher priority; every
definition below therefore evaluates under `decide`. -/

/-- Codepoint-lexicographic comparison of char lists. -/
def charsLt : List Char → List Char → Bool
  | [], [] => false
  | [], _ :: _ => true
  | _ :: _, [] => false
  | a :: as, b :: bs =>
    if a.toNat < b.toNat then true
    else if b.toNat < a.toNat then false
    else charsLt as bs

def charsLt_iff_lex :
    ∀ a b : List Char, charsLt a b = true ↔ List.Lex (fun c1 c2 => c1 < c2) a b := by
  intro a
  induction a with
  | nil =>
    intro b
    cases b with
    | nil =>
      constructor
      · intro h
        simp [charsLt] at h
      · intro h
        cases h
    | cons y bs =>
      constructor
      · intro _
        exact List.Lex.nil
      · intro _
        rfl
  | cons x as ih =>
    intro b
    cases b with
    | nil =>
      constructor
      · intro h
        simp [charsLt] at h
      · intro h
        cases h
    | cons y bs =>
      by_cases h1 : x.toNat < y.toNat
      · constructor
        · intro _
          exact List.Lex.rel (Char.lt_def.mpr h1)
        · intro _
          rw [charsLt, if_pos h1]
      · by_cases h2 : y.toNat < x.toNat
        · constructor
          · intro h
            rw [charsLt, if_neg h1, if_pos h2] at h
            exact absurd h (by simp)
          · intro h
            cases h with
            | cons h3 => exact absurd h2 (lt_irrefl _)
            | rel h3 => exact absurd (Char.lt_def.mp h3) h1
        · have hxy : x = y := Char.ext (UInt32.ext (le_antisymm (not_lt.mp h2) (not_lt.mp h1)))
          subst hxy
          constructor
          · intro h
            rw [charsLt, if_neg h1, if_neg h2] at h
            exact List.Lex.cons ((ih bs).mp h)
          · intro h
            rw [charsLt, if_neg h1, if_neg h2]
            cases h with
            | cons h3 => exact (ih bs).mpr h3
            | rel h3 => exact absurd (Char.lt_def.mp h3) h1

def charsLt_iff_lt (a b : String) : charsLt a.data b.data = true ↔ a < b := by
  rw [String.lt_iff_toList_lt]
  exact charsLt_iff_lex a.data b.data

instance (priority := 2000) instDecStrLt (a b : String) : Decidable (a < b) :=
  decidable_of_iff (charsLt a.data b.data = true) (charsLt_iff_lt a b)

instance (priority := 2000) instDecStrLe (a b : String) : Decidable (a ≤ b) :=
  decidable_of_iff (¬ charsLt b.data a.data = true)
    (by rw [charsLt_iff_lt]; exact not_lt)

/-! ### Sorted string lists: the canonical model of `HashSet<String>` -/

/-- A strictly ascending list of strings (canonical set representative). -/
def SortedStrings (l : List String) : Prop :=
  l.Pairwise (fun a b => a < b)

instance (l : List String) : Decidable (SortedStrings l) := by
  unfold SortedStrings
  infer_instance

/-- Insert into a sorted string list, skipping duplicates
(models `HashSet::insert`). -/
def sinsert (x : String) : List String → List String
  | [] => [x]
  | y :: t =>
    if x < y then x :: y :: t
    else if x = y then y :: t
    else y :: sinsert x t

/-- Set union by repeated insertion (models `HashSet::extend`). -/
def sunion (a b : List String) : List String :=
  b.foldl (fun acc x => sinsert x acc) a

/-! ### Stable insertion sort, modelling `Vec::sort_by` -/

/-- Ordered insertion with respect to a boolean relation. -/
def insertByL {α : Type} (le : α → α → Bool) (x : α) : List α → List α
  | [] => [x]
  | y :: t => if le x y then x :: y :: t else y :: insertByL le x t

/-- Stable insertion sort (equal elements keep their original order, like
Rust's stable `sort_by`). -/
def sortByL {α : Type} (le : α → α → Bool) (l : List α) : List α :=
  l.foldr (insertByL le) []

/-! ### Sorted association lists: the canonical model of `HashMap<String, V>` -/

/-- The keys of an association list are strictly ascending (hence distinct).
This is the canonical representative of a `HashMap`'s content. -/
def SortedKeys {α : Type} (l : List (String × α)) : Prop :=
  l.Pairwise (fun a b => a.1 < b.1)

instance {α : Type} [DecidableEq α] (l : List (String × α)) : Decidable (SortedKeys l) := by
  unfold SortedKeys
  infer_instance

/-- Lookup by key, as `HashMap::get`. -/
def slookup {α : Type} (k : String) : List (String × α) → Option α
  | [] => none
  | (k1, v) :: t => if k = k1 then some v else slookup k t

/-- Insert-or-update at a key, keeping the list sorted.  This models the
`HashMap::entry(k)` idiom: `f none` is the inserted value when the key is
absent, `f (some v)` the updated value when `v` is present. -/
def supsert {α : Type} (k : String) (f : Option α → α) : List (String × α) → List (String × α)
  | [] => [(k, f none)]
  | (k1, v) :: t =>
    if k < k1 then (k, f none) :: (k1, v) :: t
    else if k = k1 then (k, f (some v)) :: t
    else (k1, v) :: supsert k f t

/-! ### Pointwise max merge over counter maps (`VectorClock::merge`, `GCounter::merge`) -/

/-- Iterate over `other`'s entries, raising each of `self`'s entries to the
maximum (`*entry = (*entry).max(clock)` after `entry(node).or_insert(0)`). -/
def smergeMax (a b : List (String × Nat)) : List (String × Nat) :=
  b.foldl (fun acc p => supsert p.1 (fun o => max (o.getD 0) p.2) acc) a

/-- Option-level description of one key after a pointwise max merge. -/
def maxOpt (x y : Option Nat) : Option Nat :=
  match x, y with
  | none, none => none
  | some v, none => some v
  | none, some w => some w
  | some v, some w => some (max v w)

/-! ### Sums of counter maps -/

/-- Sum of all values in a counter map (`HashMap::values().sum()`). -/
def ssum (l : List (String × Nat)) : Nat :=
  (l.map Prod.snd).sum

/-! ### src/crdt.rs: the CRDT primitives -/

/-- Model of `VectorClock` from src/crdt.rs: `clocks: HashMap<NodeId, u64>`. -/
structure VectorClock where
  clocks : List (String × Nat)
deriving DecidableEq, Repr

/-- Model of `VectorClock::new`. -/
def VectorClock.new : VectorClock := ⟨[]⟩

/-- Model of `VectorClock::increment`: `*self.clocks.entry(node_id).or_insert(0) += 1`. -/
def VectorClock.increment (vc : VectorClock) (node_id : String) : VectorClock :=
  ⟨supsert node_id (fun o => o.getD 0 + 1) vc.clocks⟩

/-- Model of `VectorClock::get`: `self.clocks.get(node_id).copied().unwrap_or(0)`. -/
def VectorClock.get (vc : VectorClock) (node_id : String) : Nat :=
  (slookup node_id vc.clocks).getD 0

/-- Model of `VectorClock::merge`: pointwise max over the entries of `other`. -/
def VectorClock.merge (vc other : VectorClock) : VectorClock :=
  ⟨smergeMax vc.clocks other.clocks⟩

/-- Model of `VectorClock::happens_before`: returns `false` as soon as one of
`self`'s entries exceeds `other`'s; otherwise the result is whether some
entry of `self` is strictly below `other`'s, or some node present only in
`other` has a positive counter there. -/
def VectorClock.happens_before (vc other : VectorClock) : Bool :=
  if vc.clocks.any (fun p => decide (other.get p.1 < p.2)) then false
  else
    vc.clocks.any (fun p => decide (p.2 < other.get p.1))
      || other.clocks.any (fun p => (slookup p.1 vc.clocks).isNone && decide (0 < p.2))

/-- Model of `VectorClock::is_concurrent`: neither happens-before and `self != other`
(derived `HashMap` equality, i.e. content equality of the stored maps). -/
def VectorClock.is_concurrent (vc other : VectorClock) : Bool :=
  !vc.happens_before other && !other.happens_before vc && decide (vc ≠ other)

/-- Model of `GCounter` from src/crdt.rs: `counts: HashMap<NodeId, u64>`. -/
structure GCounter where
  counts : List (String × Nat)
deriving DecidableEq, Repr

/-- Model of `GCounter::new`. -/
def GCounter.new : GCounter := ⟨[]⟩

/-- Model of `GCounter::increment`: `*self.counts.entry(node_id).or_insert(0) += delta`. -/
def GCounter.increment (c : GCounter) (node_id : String) (delta : Nat) : GCounter :=
  ⟨supsert node_id (fun o => o.getD 0 + delta) c.counts⟩

/-- Model of `GCounter::value`: sum of all per-node counts. -/
def GCounter.value (c : GCounter) : Nat :=
  ssum c.counts

/-- Model of `GCounter::merge`: pointwise max over the entries of `other`. -/
def GCounter.merge (c other : GCounter) : GCounter :=
  ⟨smergeMax c.counts other.counts⟩

/-- Comparison used by `sort_by(|a, b| a.0.cmp(b.0))` on key-value pairs. -/
def keyLE {α : Type} (a b : String × α) : Bool :=
  decide (a.1 ≤ b.1)

/-- The byte stream fed to the hasher in `GCounter::state_hash`:
entries sorted by node, then node bytes followed by the count's 8
little-endian bytes. -/
def GCounter.hashInput (c : GCounter) : List Byte :=
  (sortByL keyLE c.counts).foldl (fun acc p => acc ++ strBytes p.1 ++ le8 p.2) []

/-- Model of `GCounter::state_hash`: hex-encoded SHA-256 of `hashInput`. -/
def GCounter.state_hash (c : GCounter) : String :=
  hexEncode (sha256 c.hashInput)

/-- Model of `PNCounter` from src/crdt.rs. -/
structure PNCounter where
  positive : GCounter
  negative : GCounter
deriving DecidableEq, Repr

/-- Model of `PNCounter::new`. -/
def PNCounter.new : PNCounter := ⟨GCounter.new, GCounter.new⟩

/-- Model of `PNCounter::increment`. -/
def PNCounter.increment (c : PNCounter) (node_id : String) (delta : Nat) : PNCounter :=
  { c with positive := c.positive.increment node_id delta }

/-- Model of `PNCounter::decrement`. -/
def PNCounter.decrement (c : PNCounter) (node_id : String) (delta : Nat) : PNCounter :=
  { c with negative := c.negative.increment node_id delta }

/-- Model of `PNCounter::value`: positive sum minus negative sum. -/
def PNCounter.value (c : PNCounter) : Int :=
  (c.positive.value : Int) - (c.negative.value : Int)

/-- Model of `PNCounter::merge`: merge both halves independently. -/
def PNCounter.merge (c other : PNCounter) : PNCounter :=
  ⟨c.positive.merge other.positive, c.negative.merge other.negative⟩

/-- The byte stream fed to the hasher in `PNCounter::state_hash`. -/
def PNCounter.hashInput (c : PNCounter) : List Byte :=
  strBytes "positive:" ++ strBytes c.positive.state_hash
    ++ strBytes "negative:" ++ strBytes c.negative.state_hash

/-- Model of `PNCounter::state_hash`. -/
def PNCounter.state_hash (c : PNCounter) : String :=
  hexEncode (sha256 c.hashInput)

/-- Model of `LWWRegister<T>` from src/crdt.rs. -/
structure LWWRegister (T : Type) where
  value : Option T
  timestamp : Int
  node_id : String
deriving DecidableEq, Repr

/-- Model of `LWWRegister::new`: empty value, timestamp 0, empty writer. -/
def LWWRegister.new {T : Type} : LWWRegister T :=
  ⟨none, 0, ""⟩

/-- Model of `LWWRegister::set`. -/
def LWWRegister.set {T : Type} (r : LWWRegister T) (value : T) (timestamp : Int)
    (node_id : String) : LWWRegister T :=
  ⟨some value, timestamp, node_id⟩

/-- Model of `LWWRegister::get`. -/
def LWWRegister.getv {T : Type} (r : LWWRegister T) : Option T :=
  r.value

/-- Model of `LWWRegister::merge`: adopt `other`'s value, timestamp and writer when
`other.timestamp > self.timestamp`, or on timestamp ties when
`other.node_id > self.node_id`; otherwise keep `self` unchanged. -/
def LWWRegister.merge {T : Type} (r other : LWWRegister T) : LWWRegister T :=
  if other.timestamp > r.timestamp
      ∨ (other.timestamp = r.timestamp ∧ r.node_id < other.node_id) then
    ⟨other.value, other.timestamp, other.node_id⟩
  else r

/-- Model of `ORSet<String>` from src/crdt.rs: `added: HashMap<T, HashSet<String>>`,
`removed: HashSet<String>`.  The repository only instantiates `T = String`. -/
structure ORSet where
  added : List (String × List String)
  removed : List String
deriving DecidableEq, Repr

/-- Model of `ORSet::new`. -/
def ORSet.new : ORSet := ⟨[], []⟩

/-- Model of `ORSet::add`: `self.added.entry(value).or_default().insert(unique_id)`. -/
def ORSet.add (s : ORSet) (value : String) (unique_id : String) : ORSet :=
  { s with added := supsert value (fun o => sinsert unique_id (o.getD [])) s.added }

/-- Model of `ORSet::remove`: move every uid currently recorded for `value` into
`removed`; absent values leave the set unchanged. -/
def ORSet.remove (s : ORSet) (value : String) : ORSet :=
  match slookup value s.added with
  | some ids => { s with removed := sunion s.removed ids }
  | none => s

/-- Model of `ORSet::contains`: some uid recorded for `value` is not removed. -/
def ORSet.contains (s : ORSet) (value : String) : Bool :=
  match slookup value s.added with
  | some ids => ids.any (fun id => !s.removed.contains id)
  | none => false

/-- Model of `ORSet::elements`: values with at least one live uid. -/
def ORSet.elements (s : ORSet) : List String :=
  s.added.filterMap (fun p =>
    if p.2.any (fun id => !s.removed.contains id) then some p.1 else none)

/-- Model of `ORSet::merge`: per-value union of `added`, union of `removed`. -/
def ORSet.merge (s other : ORSet) : ORSet :=
  ⟨other.added.foldl (fun acc p => supsert p.1 (fun o => sunion (o.getD []) p.2) acc) s.added,
    sunion s.removed other.removed⟩

/-- Model of `CRDTValue` from src/crdt.rs. -/
inductive CRDTValue where
  | GCounter (c : GCounter)
  | PNCounter (c : PNCounter)
  | LWWRegister (r : LWWRegister String)
  | ORSet (s : ORSet)
deriving DecidableEq, Repr

/-- Model of `CRDTMap` from src/crdt.rs. -/
structure CRDTMap where
  entries : List (String × CRDTValue)
  vector_clock : VectorClock
deriving DecidableEq, Repr

/-- Model of `CRDTMap::new`. -/
def CRDTMap.new : CRDTMap := ⟨[], VectorClock.new⟩

/-- Model of `CRDTMap::get`. -/
def CRDTMap.get (m : CRDTMap) (key : String) : Option CRDTValue :=
  slookup key m.entries

/-- Model of `CRDTMap::set`. -/
def CRDTMap.set (m : CRDTMap) (key : String) (value : CRDTValue) : CRDTMap :=
  { m with entries := supsert key (fun _ => value) m.entries }

/-- One step of `CRDTMap::merge` for the entry `(k, ov)` of `other`:
same-variant entries merge via the primitive merge, absent keys copy
`other`'s value, and variant mismatches leave the local entries unchanged. -/
def mergeEntryStep (acc : List (String × CRDTValue)) (k : String)
    (ov : CRDTValue) : List (String × CRDTValue) :=
  match slookup k acc, ov with
  | some (CRDTValue.GCounter a), CRDTValue.GCounter b =>
    supsert k (fun _ => CRDTValue.GCounter (a.merge b)) acc
  | some (CRDTValue.PNCounter a), CRDTValue.PNCounter b =>
    supsert k (fun _ => CRDTValue.PNCounter (a.merge b)) acc
  | some (CRDTValue.LWWRegister a), CRDTValue.LWWRegister b =>
    supsert k (fun _ => CRDTValue.LWWRegister (a.merge b)) acc
  | some (CRDTValue.ORSet a), CRDTValue.ORSet b =>
    supsert k (fun _ => CRDTValue.ORSet (a.merge b)) acc
  | none, _ => supsert k (fun _ => ov) acc
  | some _, _ => acc

/-- Model of `CRDTMap::merge`: fold `mergeEntryStep` over `other`'s entries, then
merge the vector clocks pointwise. -/
def CRDTMap.merge (m other : CRDTMap) : CRDTMap :=
  ⟨other.entries.foldl (fun acc p => mergeEntryStep acc p.1 p.2) m.entries,
    m.vector_clock.merge other.vector_clock⟩

/-- The bytes contributed by one entry value in `CRDTMap::state_hash`. -/
def valueHashBytes : CRDTValue → List Byte
  | CRDTValue.GCounter c => strBytes c.state_hash
  | CRDTValue.PNCounter c => strBytes c.state_hash
  | CRDTValue.LWWRegister r =>
    (match r.getv with
      | some v => strBytes v
      | none => []) ++ le8Int r.timestamp
  | CRDTValue.ORSet s =>
    (sortByL (fun a b => decide (a ≤ b)) s.elements).foldl
      (fun acc e => acc ++ strBytes e) []

/-- The byte stream fed to the hasher in `CRDTMap::state_hash`: entries
sorted by key, each contributing its key bytes then its value bytes. -/
def CRDTMap.hashInput (m : CRDTMap) : List Byte :=
  (sortByL keyLE m.entries).foldl (fun acc p => acc ++ strBytes p.1 ++ valueHashBytes p.2) []

/-- Model of `CRDTMap::state_hash`: hex-encoded SHA-256 of `hashInput`. -/
def CRDTMap.state_hash (m : CRDTMap) : String :=
  hexEncode (sha256 m.hashInput)

/-! ### src/sync.rs: operations, the op log and the sync state -/

/-- Model of `Operation` from src/sync.rs. -/
inductive Operation where
  | GCounterIncrement (key : String) (node_id : String) (delta : Nat)
  | PNCounterIncrement (key : String) (node_id : String) (delta : Nat)
  | PNCounterDecrement (key : String) (node_id : String) (delta : Nat)
  | LwwRegisterSet (key : String) (value : String) (timestamp : Int) (node_id : String)
  | OrSetAdd (key : String) (value : String) (unique_id : String)
  | OrSetRemove (key : String) (value : String)
deriving DecidableEq, Repr

/-- Model of `OpLogEntry` from src/sync.rs. -/
structure OpLogEntry where
  id : String
  ts : Int
  causal : VectorClock
  op : Operation
deriving DecidableEq, Repr

/-- Model of `OpLog` from src/sync.rs. -/
structure OpLog where
  node_id : String
  ops : List OpLogEntry
deriving DecidableEq, Repr

/-- Model of `OpLog::new`. -/
def OpLog.new (node_id : String) : OpLog := ⟨node_id, []⟩

/-- Model of `OpLog::add_operation`.  The freshly minted `scru128` id and the wall
clock timestamp are nondeterministic inputs of the Rust code and are passed
in explicitly.  The node's vector clock entry is incremented first and the
entry stores a snapshot of the updated clock; both the extended log and the
updated clock are returned (the Rust code mutates them in place). -/
def OpLog.add_operation (log : OpLog) (fresh_id : String) (now_ts : Int)
    (op : Operation) (vector_clock : VectorClock) : OpLog × VectorClock :=
  let vc := vector_clock.increment log.node_id
  ({ log with ops := log.ops ++ [⟨fresh_id, now_ts, vc, op⟩] }, vc)

/-- The `(ts, id)` comparison used by `OpLog::merge`'s `sort_by`. -/
def entryLE (a b : OpLogEntry) : Bool :=
  decide (a.ts < b.ts ∨ (a.ts = b.ts ∧ a.id ≤ b.id))

/-- The dedup loop of `OpLog::merge`: push each entry of `other` whose id
does not occur in the (growing) list. -/
def pushNewOps (acc : List OpLogEntry) (bs : List OpLogEntry) : List OpLogEntry :=
  bs.foldl (fun acc e => if acc.any (fun e2 => e2.id = e.id) then acc else acc ++ [e]) acc

/-- Model of `OpLog::merge`: union by id, then re-sort by `(ts, id)` ascending. -/
def OpLog.merge (log other : OpLog) : OpLog :=
  { log with ops := sortByL entryLE (pushNewOps log.ops other.ops) }

/-- Model of `SyncState` from src/sync.rs. -/
structure SyncState where
  node_id : String
  crdt_map : CRDTMap
  op_log : OpLog
deriving DecidableEq, Repr

/-- Model of `SyncState::new`. -/
def SyncState.new (node_id : String) : SyncState :=
  ⟨node_id, CRDTMap.new, OpLog.new node_id⟩

/-- The entry update performed by `SyncState::apply_operation` on the CRDT
map.  Each arm mirrors the `entry(key).or_insert_with(default)` followed by
an `if let` on the expected variant: a fresh default value is inserted when
the key is absent, the matching variant is mutated, and an existing entry
of a different variant is left unchanged. -/
def applyOpToEntries (entries : List (String × CRDTValue)) :
    Operation → List (String × CRDTValue)
  | Operation.GCounterIncrement key node_id delta =>
    let cur := (slookup key entries).getD (CRDTValue.GCounter GCounter.new)
    match cur with
    | CRDTValue.GCounter c =>
      supsert key (fun _ => CRDTValue.GCounter (c.increment node_id delta)) entries
    | _ => entries
  | Operation.PNCounterIncrement key node_id delta =>
    let cur := (slookup key entries).getD (CRDTValue.PNCounter PNCounter.new)
    match cur with
    | CRDTValue.PNCounter c =>
      supsert key (fun _ => CRDTValue.PNCounter (c.increment node_id delta)) entries
    | _ => entries
  | Operation.PNCounterDecrement key node_id delta =>
    let cur := (slookup key entries).getD (CRDTValue.PNCounter PNCounter.new)
    match cur with
    | CRDTValue.PNCounter c =>
      supsert key (fun _ => CRDTValue.PNCounter (c.decrement node_id delta)) entries
    | _ => entries
  | Operation.LwwRegisterSet key value timestamp node_id =>
    let cur := (slookup key entries).getD (CRDTValue.LWWRegister LWWRegister.new)
    match cur with
    | CRDTValue.LWWRegister r =>
      supsert key (fun _ => CRDTValue.LWWRegister (r.set value timestamp node_id)) entries
    | _ => entries
  | Operation.OrSetAdd key value unique_id =>
    let cur := (slookup key entries).getD (CRDTValue.ORSet ORSet.new)
    match cur with
    | CRDTValue.ORSet s =>
      supsert key (fun _ => CRDTValue.ORSet (s.add value unique_id)) entries
    | _ => entries
  | Operation.OrSetRemove key value =>
    match slookup key entries with
    | some (CRDTValue.ORSet s) =>
      supsert key (fun _ => CRDTValue.ORSet (s.remove value)) entries
    | _ => entries

/-- Model of `SyncState::apply_operation`: log the operation (incrementing the map's
vector clock for the log owner), then mutate the matching map entry.
`fresh_id` and `now_ts` are the nondeterministic inputs of
`OpLog::add_operation`. -/
def SyncState.apply_operation (s : SyncState) (fresh_id : String) (now_ts : Int)
    (op : Operation) : SyncState :=
  let logged := s.op_log.add_operation fresh_id now_ts op s.crdt_map.vector_clock
  { s with
    op_log := logged.1
    crdt_map :=
      { entries := applyOpToEntries s.crdt_map.entries op
        vector_clock := logged.2 } }

/-- Model of `SyncState::merge`: merge the op log, then the CRDT map. -/
def SyncState.merge (s other : SyncState) : SyncState :=
  { s with
    op_log := s.op_log.merge other.op_log
    crdt_map := s.crdt_map.merge other.crdt_map }

/-- Model of `SyncState::state_hash`: digest of the CRDT map only. -/
def SyncState.state_hash (s : SyncState) : String :=
  s.crdt_map.state_hash

/-- Model of `Change` from src/sync.rs. -/
structure Change where
  op : String
  key : String
  value : Option String
  delta : Option Nat
deriving DecidableEq, Repr

/-- The nondeterministic inputs consumed while applying one `Change`:
the `scru128` uid minted for an `add`, the wall clock read for a `set`,
and the id and timestamp minted inside `OpLog::add_operation`. -/
structure Entropy where
  uid : String
  now : Int
  op_id : String
  op_ts : Int
deriving DecidableEq, Repr

instance : Inhabited Entropy := ⟨⟨"", 0, "", 0⟩⟩

/-- Translation of one `Change` arm of `SyncState::apply_changes`:
either the error returned before any mutation, or the mutated state. -/
def applyChange (s : SyncState) (e : Entropy) (c : Change) : Except String SyncState :=
  match c.op with
  | "add" =>
    match c.value with
    | none => Except.error "Missing value for add operation"
    | some value =>
      Except.ok (s.apply_operation e.op_id e.op_ts (Operation.OrSetAdd c.key value e.uid))
  | "remove" =>
    match c.value with
    | none => Except.error "Missing value for remove operation"
    | some value =>
      Except.ok (s.apply_operation e.op_id e.op_ts (Operation.OrSetRemove c.key value))
  | "increment" =>
    Except.ok (s.apply_operation e.op_id e.op_ts
      (Operation.PNCounterIncrement c.key s.node_id (c.delta.getD 1)))
  | "decrement" =>
    Except.ok (s.apply_operation e.op_id e.op_ts
      (Operation.PNCounterDecrement c.key s.node_id (c.delta.getD 1)))
  | "set" =>
    match c.value with
    | none => Except.error "Missing value for set operation"
    | some value =>
      Except.ok (s.apply_operation e.op_id e.op_ts
        (Operation.LwwRegisterSet c.key value e.now s.node_id))
  | other => Except.error ("Unknown operation: " ++ other)

/-- Model of `SyncState::apply_changes`: apply each change in order; on the first
failing change stop and report the error.  The returned state reflects all
successfully applied changes (the Rust method mutates `self` in place and
returns `Result<(), String>`). -/
def SyncState.apply_changes (s : SyncState) (es : List Entropy) :
    List Change → SyncState × Option String
  | [] => (s, none)
  | c :: cs =>
    match applyChange s (es.headD default) c with
    | Except.error msg => (s, some msg)
    | Except.ok s1 => s1.apply_changes es.tail cs

/-! ### src/api.rs: the conflict detector (`get_conflicts_handler`) -/

/-- A reported concurrent write.  In the Rust source the shown `details`
string wraps the written value in a fixed message; the value itself is kept
here. -/
structure ConflictOperation where
  id : String
  timestamp : Int
  node_id : String
  value : String
deriving DecidableEq, Repr

/-- A reported conflict.  The Rust source interpolates the winning node id
into a fixed `resolution` message; the node id itself is kept here. -/
structure Conflict where
  key : String
  conflict_type : String
  operations : List ConflictOperation
  winner_node : String
deriving DecidableEq, Repr

/-- Concurrency test used by the conflict detector: neither causal clock
happens-before the other (no equality test, unlike
`VectorClock::is_concurrent`). -/
def concB (c1 c2 : VectorClock) : Bool :=
  !c1.happens_before c2 && !c2.happens_before c1

/-- The `ConflictOperation` built from a log entry, when it is an LWW set. -/
def mkCOp (e : OpLogEntry) : Option ConflictOperation :=
  match e.op with
  | Operation.LwwRegisterSet _ value timestamp node_id =>
    some ⟨e.id, timestamp, node_id, value⟩
  | _ => none

/-- The inner `j` loop of the conflict scan, for a fixed `entries[i] = ei`:
for each later entry `ej` concurrent with `ei`, push `ei`'s operation only
when the accumulator is still empty, then push `ej`'s operation. -/
def innerPairs (ei : OpLogEntry) : List OpLogEntry → List ConflictOperation →
    List ConflictOperation
  | [], acc => acc
  | ej :: rest, acc =>
    let acc2 :=
      if concB ei.causal ej.causal then
        let acc3 :=
          if acc.isEmpty then
            match mkCOp ei with
            | some c => acc ++ [c]
            | none => acc
          else acc
        match mkCOp ej with
        | some c => acc3 ++ [c]
        | none => acc3
      else acc
    innerPairs ei rest acc2

/-- The outer `i` loop of the conflict scan over all index pairs `i < j`. -/
def pairLoop : List OpLogEntry → List ConflictOperation → List ConflictOperation
  | [], acc => acc
  | ei :: rest, acc => pairLoop rest (innerPairs ei rest acc)

/-- The LWW-set entries of the op log for a given key, in log order
(the grouping loop of `get_conflicts_handler`). -/
def lwwWritesFor (log : OpLog) (key : String) : List OpLogEntry :=
  log.ops.filter (fun e =>
    match e.op with
    | Operation.LwwRegisterSet k _ _ _ => k = key
    | _ => false)

/-- Model of `Iterator::max_by` with the `(timestamp, node_id)` comparison: the fold
keeps the accumulator only when it is strictly greater, so the last maximal
element wins. -/
def maxByTsNode (c : ConflictOperation) (rest : List ConflictOperation) :
    ConflictOperation :=
  rest.foldl (fun best x =>
    if best.timestamp < x.timestamp
        ∨ (best.timestamp = x.timestamp ∧ best.node_id ≤ x.node_id) then x else best) c

/-- The conflict record emitted for one key by `get_conflicts_handler`:
`none` when the key has at most one LWW write or the pair scan pushed
nothing. -/
def conflictFor (log : OpLog) (key : String) : Option Conflict :=
  let entries := lwwWritesFor log key
  if entries.length > 1 then
    match pairLoop entries [] with
    | [] => none
    | c :: rest =>
      some ⟨key, "LWWRegister 并发写入", c :: rest, (maxByTsNode c rest).node_id⟩
  else none

/-! ### Well-formedness: canonical representatives of the Rust hash maps -/

/-- The value stored at a key is canonically represented. -/
def WFValue : CRDTValue → Prop
  | CRDTValue.GCounter c => SortedKeys c.counts
  | CRDTValue.PNCounter c => SortedKeys c.positive.counts ∧ SortedKeys c.negative.counts
  | CRDTValue.LWWRegister _ => True
  | CRDTValue.ORSet s =>
    SortedKeys s.added ∧ (∀ p ∈ s.added, SortedStrings p.2) ∧ SortedStrings s.removed

/-- The CRDT map is canonically represented. -/
def WFMap (m : CRDTMap) : Prop :=
  SortedKeys m.entries ∧ ∀ p ∈ m.entries, WFValue p.2

/-- States reachable through the public mutators of `SyncState`
(`apply_changes` routes every change through `apply_operation`). -/
inductive Reachable : SyncState → Prop
  | new (node_id : String) : Reachable (SyncState.new node_id)
  | apply_operation (s : SyncState) (fresh_id : String) (now_ts : Int) (op : Operation) :
    Reachable s → Reachable (s.apply_operation fresh_id now_ts op)
  | merge (s other : SyncState) :
    Reachable s → Reachable other → Reachable (s.merge other)

/-- Option-level description of one key of the merged `added` maps. -/
def unionOpt (x y : Option (List String)) : Option (List String) :=
  match x, y with
  | none, none => none
  | some v, none => some v
  | none, some w => some (sunion [] w)
  | some v, some w => some (sunion v w)

/-- The `added` fold of `ORSet::merge`. -/
def addedMerge (a b : List (String × List String)) : List (String × List String) :=
  b.foldl (fun acc p => supsert p.1 (fun o => sunion (o.getD []) p.2) acc) a

/-! ### Commutativity of `CRDTMap::merge` on canonical states -/

/-- Merge of two values stored at the same key: same variants merge via the
primitive merge, a variant mismatch keeps the local value. -/
def mergeVal : CRDTValue → CRDTValue → CRDTValue
  | CRDTValue.GCounter a, CRDTValue.GCounter b => CRDTValue.GCounter (a.merge b)
  | CRDTValue.PNCounter a, CRDTValue.PNCounter b => CRDTValue.PNCounter (a.merge b)
  | CRDTValue.LWWRegister a, CRDTValue.LWWRegister b => CRDTValue.LWWRegister (a.merge b)
  | CRDTValue.ORSet a, CRDTValue.ORSet b => CRDTValue.ORSet (a.merge b)
  | x, _ => x

/-- Option-level description of one key after `CRDTMap::merge`. -/
def mergeOpt (x y : Option CRDTValue) : Option CRDTValue :=
  match x, y with
  | none, none => none
  | some v, none => some v
  | none, some w => some w
  | some v, some w => some (mergeVal v w)

/-- The entry fold of `CRDTMap::merge`. -/
def crdtEntriesMerge (a b : List (String × CRDTValue)) : List (String × CRDTValue) :=
  b.foldl (fun acc p => mergeEntryStep acc p.1 p.2) a

/-- The two stored values have the same variant. -/
def sameVariantB : CRDTValue → CRDTValue → Bool
  | CRDTValue.GCounter _, CRDTValue.GCounter _ => true
  | CRDTValue.PNCounter _, CRDTValue.PNCounter _ => true
  | CRDTValue.LWWRegister _, CRDTValue.LWWRegister _ => true
  | CRDTValue.ORSet _, CRDTValue.ORSet _ => true
  | _, _ => false

/-- Two LWW registers with equal `(timestamp, node_id)` agree on the value
(trivially true for any other pair of values). -/
def lwwAgreeB : CRDTValue → CRDTValue → Bool
  | CRDTValue.LWWRegister a, CRDTValue.LWWRegister b =>
    decide (a.timestamp = b.timestamp → a.node_id = b.node_id → a.value = b.value)
  | _, _ => true

/-! ### Claim-side definitions -/

/-- Zero-valued entries removed (the spec's clock equality notion). -/
def stripZeros (l : List (String × Nat)) : List (String × Nat) :=
  l.filter (fun p => p.2 ≠ 0)

/-- One step of the increment-or-merge sequences of the monotonicity claim. -/
inductive GCounterOp where
  | increment (node_id : String) (delta : Nat)
  | merge (other : GCounter)
deriving Repr

/-- Apply one `GCounter` step. -/
def applyGCounterOp (c : GCounter) : GCounterOp → GCounter
  | GCounterOp.increment n d => c.increment n d
  | GCounterOp.merge o => c.merge o

/-- Apply a sequence of `GCounter` steps. -/
def applyGCounterOps (c : GCounter) (ops : List GCounterOp) : GCounter :=
  ops.foldl applyGCounterOp c

/-- The error produced by a single `Change`, independent of the state:
`none` when the change is applicable. -/
def changeFails (c : Change) : Option String :=
  match c.op with
  | "add" =>
    match c.value with
    | none => some "Missing value for add operation"
    | some _ => none
  | "remove" =>
    match c.value with
    | none => some "Missing value for remove operation"
    | some _ => none
  | "increment" => none
  | "decrement" => none
  | "set" =>
    match c.value with
    | none => some "Missing value for set operation"
    | some _ => none
  | other => some ("Unknown operation: " ++ other)

/-- The key an operation addresses. -/
def opKey : Operation → String
  | Operation.GCounterIncrement key _ _ => key
  | Operation.PNCounterIncrement key _ _ => key
  | Operation.PNCounterDecrement key _ _ => key
  | Operation.LwwRegisterSet key _ _ _ => key
  | Operation.OrSetAdd key _ _ => key
  | Operation.OrSetRemove key _ => key

/-- Discriminant of the CRDT variant an operation targets. -/
def opVariantTag : Operation → Nat
  | Operation.GCounterIncrement _ _ _ => 0
  | Operation.PNCounterIncrement _ _ _ => 1
  | Operation.PNCounterDecrement _ _ _ => 1
  | Operation.LwwRegisterSet _ _ _ _ => 2
  | Operation.OrSetAdd _ _ _ => 3
  | Operation.OrSetRemove _ _ => 3

/-- Discriminant of a stored value's variant. -/
def valueVariantTag : CRDTValue → Nat
  | CRDTValue.GCounter _ => 0
  | CRDTValue.PNCounter _ => 1
  | CRDTValue.LWWRegister _ => 2
  | CRDTValue.ORSet _ => 3

/-- The map already holds an entry at the operation's key whose variant
differs from the variant the operation targets. -/
def variantMismatch (entries : List (String × CRDTValue)) (op : Operation) : Bool :=
  match slookup (opKey op) entries with
  | some v => valueVariantTag v != opVariantTag op
  | none => false

/-- Lexicographic `(timestamp, node_id)` order used by the conflict
detector's winner selection. -/
def tsnLE (a b : ConflictOperation) : Prop :=
  a.timestamp < b.timestamp ∨ (a.timestamp = b.timestamp ∧ a.node_id ≤ b.node_id)

instance (a b : ConflictOperation) : Decidable (tsnLE a b) := by
  unfold tsnLE; infer_instance

/-- Some later entry is concurrent with an earlier one (positional pairs). -/
def hasConcPair : List OpLogEntry → Bool
  | [] => false
  | e :: t => t.any (fun e2 => concB e.causal e2.causal) || hasConcPair t

/-- The canonical per-node byte encoding of a `GCounter`, as described by
the spec: node bytes then the count's 8 little-endian bytes, in ascending
node order. -/
def gcounterCanonicalBytes (c : GCounter) : List Byte :=
  (sortByL keyLE c.counts).flatMap (fun p => strBytes p.1 ++ le8 p.2)

/-- Per-variant canonical bytes matching what the implementation feeds into
the map-level hasher: counters contribute the ASCII bytes of their
hex-encoded nested SHA-256 digests, registers their value bytes and
little-endian timestamp, sets their sorted live elements. -/
def valueCanonicalBytes : CRDTValue → List Byte
  | CRDTValue.GCounter c =>
    strBytes (hexEncode (sha256 (gcounterCanonicalBytes c)))
  | CRDTValue.PNCounter c =>
    strBytes (hexEncode (sha256 (strBytes "positive:"
      ++ strBytes (hexEncode (sha256 (gcounterCanonicalBytes c.positive)))
      ++ strBytes "negative:"
      ++ strBytes (hexEncode (sha256 (gcounterCanonicalBytes c.negative))))))
  | CRDTValue.LWWRegister r =>
    (match r.value with
      | some v => strBytes v
      | none => []) ++ le8Int r.timestamp
  | CRDTValue.ORSet s =>
    (sortByL (fun a b => decide (a ≤ b)) s.elements).flatMap strBytes

/-- The canonical byte sequence of the whole map: entries in ascending key
order, each contributing its key bytes then its per-variant bytes. -/
def mapCanonicalBytes (m : CRDTMap) : List Byte :=
  (sortByL keyLE m.entries).flatMap (fun p => strBytes p.1 ++ valueCanonicalBytes p.2)

/-- Per-variant bytes as literally described by the specification text,
whose GCounter clause contributes the raw node/count encoding instead of a
nested hex digest (the clause the hash claim turns on). -/
def specValueBytes : CRDTValue → List Byte
  | CRDTValue.GCounter c => gcounterCanonicalBytes c
  | CRDTValue.PNCounter c =>
    strBytes (hexEncode (sha256 (strBytes "positive:"
      ++ strBytes (hexEncode (sha256 (gcounterCanonicalBytes c.positive)))
      ++ strBytes "negative:"
      ++ strBytes (hexEncode (sha256 (gcounterCanonicalBytes c.negative))))))
  | CRDTValue.LWWRegister r =>
    (match r.value with
      | some v => strBytes v
      | none => []) ++ le8Int r.timestamp
  | CRDTValue.ORSet s =>
    (sortByL (fun a b => decide (a ≤ b)) s.elements).flatMap strBytes

/-- The spec-described canonical byte sequence of the whole map. -/
def specMapBytes (m : CRDTMap) : List Byte :=
  (sortByL keyLE m.entries).flatMap (fun p => strBytes p.1 ++ specValueBytes p.2)

/-- A concrete state holding an ORSet at key `k`. -/
def mismatchBase : SyncState :=
  (SyncState.new "n1").apply_operation "i1" 3 (Operation.OrSetAdd "k" "x" "u1")

/-- A concrete change request whose second change is an `add` missing its
value. -/
def c6changes : List Change :=
  [⟨"increment", "c", none, some 5⟩, ⟨"add", "s1", none, none⟩,
    ⟨"increment", "c", none, some 9⟩]

/-- The conflict log used to probe the detector: three LWW writes on key
`k`, where the first happens-before the second and the third is concurrent
with both. -/
def conflictProbeLog : OpLog :=
  ⟨"n1",
    [⟨"i0", 100, ⟨[("n1", 1)]⟩, Operation.LwwRegisterSet "k" "A" 100 "n1"⟩,
     ⟨"i1", 100, ⟨[("n1", 2)]⟩, Operation.LwwRegisterSet "k" "B" 100 "n1"⟩,
     ⟨"i2", 100, ⟨[("n2", 1)]⟩, Operation.LwwRegisterSet "k" "C" 100 "n2"⟩]⟩

/-- A reachable state whose key `"k"` holds the LWW write `("A", 5, "w")`. -/
def cexLwwA : SyncState :=
  (SyncState.new "n1").apply_operation "ia" 7 (Operation.LwwRegisterSet "k" "A" 5 "w")

/-- A reachable state whose key `"k"` holds the LWW write `("B", 5, "w")`. -/
def cexLwwB : SyncState :=
  (SyncState.new "n2").apply_operation "ib" 8 (Operation.LwwRegisterSet "k" "B" 5 "w")

/-- A reachable state with a counter contribution from node `n1`. -/
def commWitA : SyncState :=
  (SyncState.new "n1").apply_operation "i1" 1 (Operation.GCounterIncrement "c" "n1" 5)

/-- A reachable state with a counter contribution from node `n2`. -/
def commWitB : SyncState :=
  (SyncState.new "n2").apply_operation "i2" 2 (Operation.GCounterIncrement "c" "n2" 3)

theorem mem_sinsert (a x : String) :
    ∀ l : List String, a ∈ sinsert x l ↔ a = x ∨ a ∈ l := by
  intro l
  induction l with
  | nil => simp [sinsert]
  | cons y t ih =>
    by_cases hlt : x < y
    · rw [sinsert, if_pos hlt]
      simp
    · by_cases heq : x = y
      · rw [sinsert, if_neg hlt, if_pos heq]
        subst heq
        simp only [List.mem_cons]
        constructor
        · exact Or.inr
        · intro h; rcases h with h | h | h
          · exact Or.inl (h ▸ rfl)
          · exact Or.inl h
          · exact Or.inr h
      · rw [sinsert, if_neg hlt, if_neg heq]
        simp only [List.mem_cons, ih]
        tauto

theorem sinsert_sorted (x : String) :
    ∀ l : List String, SortedStrings l → SortedStrings (sinsert x l) := by
  intro l
  induction l with
  | nil => intro _; simp [sinsert, SortedStrings]
  | cons y t ih =>
    intro hs
    rw [SortedStrings, List.pairwise_cons] at hs
    obtain ⟨hhead, htail⟩ := hs
    by_cases hlt : x < y
    · rw [SortedStrings, sinsert, if_pos hlt]
      refine List.Pairwise.cons ?_ (List.Pairwise.cons hhead htail)
      intro b hb
      rcases List.mem_cons.mp hb with hb | hb
      · exact hb ▸ hlt
      · exact lt_trans hlt (hhead b hb)
    · by_cases heq : x = y
      · rw [SortedStrings, sinsert, if_neg hlt, if_pos heq]
        exact List.Pairwise.cons hhead htail
      · have hyx : y < x := by
          rcases lt_trichotomy x y with h1 | h1 | h1
          · exact absurd h1 hlt
          · exact absurd h1 heq
          · exact h1
        rw [SortedStrings, sinsert, if_neg hlt, if_neg heq]
        refine List.Pairwise.cons ?_ (ih htail)
        intro b hb
        rcases (mem_sinsert b x t).mp hb with hb | hb
        · exact hb ▸ hyx
        · exact hhead b hb

theorem mem_sunion (a : String) :
    ∀ (b l : List String), a ∈ sunion l b ↔ a ∈ l ∨ a ∈ b := by
  intro b
  induction b with
  | nil => intro l; simp [sunion]
  | cons y t ih =>
    intro l
    rw [sunion, List.foldl_cons]
    have := ih (sinsert y l)
    rw [sunion] at this
    rw [this, mem_sinsert]
    simp only [List.mem_cons]
    tauto

theorem sunion_sorted :
    ∀ (b l : List String), SortedStrings l → SortedStrings (sunion l b) := by
  intro b
  induction b with
  | nil => intro l h; exact h
  | cons y t ih =>
    intro l h
    rw [sunion, List.foldl_cons]
    exact ih (sinsert y l) (sinsert_sorted y l h)

/-- Canonical set representatives are determined by their members. -/
theorem sortedStrings_ext :
    ∀ (a b : List String), SortedStrings a → SortedStrings b →
      (∀ x, x ∈ a ↔ x ∈ b) → a = b := by
  intro a
  induction a with
  | nil =>
    intro b _ _ h
    cases b with
    | nil => rfl
    | cons y t =>
      have := (h y).mpr (List.mem_cons_self y t)
      simp at this
  | cons x t ih =>
    intro b ha hb h
    cases b with
    | nil =>
      have := (h x).mp (List.mem_cons_self x t)
      simp at this
    | cons y u =>
      rw [SortedStrings, List.pairwise_cons] at ha hb
      obtain ⟨hahead, hatail⟩ := ha
      obtain ⟨hbhead, hbtail⟩ := hb
      have hxy : x = y := by
        rcases List.mem_cons.mp ((h x).mp (List.mem_cons_self x t)) with h1 | h1
        · exact h1
        · rcases List.mem_cons.mp ((h y).mpr (List.mem_cons_self y u)) with h2 | h2
          · exact h2.symm
          · exact absurd (hbhead x h1) (lt_asymm (hahead y h2))
      subst hxy
      have htail : t = u := by
        apply ih u hatail hbtail
        intro z
        constructor
        · intro hz
          rcases List.mem_cons.mp ((h z).mp (List.mem_cons_of_mem x hz)) with h1 | h1
          · exact absurd (h1 ▸ hahead z hz) (lt_irrefl x)
          · exact h1
        · intro hz
          rcases List.mem_cons.mp ((h z).mpr (List.mem_cons_of_mem x hz)) with h1 | h1
          · exact absurd (h1 ▸ hbhead z hz) (lt_irrefl x)
          · exact h1
      rw [htail]

theorem sunion_comm (a b : List String) (ha : SortedStrings a) (hb : SortedStrings b) :
    sunion a b = sunion b a := by
  apply sortedStrings_ext _ _ (sunion_sorted b a ha) (sunion_sorted a b hb)
  intro x
  rw [mem_sunion, mem_sunion]
  tauto

theorem insertByL_perm {α : Type} (le : α → α → Bool) (x : α) :
    ∀ l : List α, List.Perm (insertByL le x l) (x :: l) := by
  intro l
  induction l with
  | nil => rfl
  | cons y t ih =>
    by_cases h : le x y
    · rw [insertByL, if_pos h]
    · rw [insertByL, if_neg h]
      exact List.Perm.trans (List.Perm.cons y ih) (List.Perm.swap x y t)

theorem sortByL_perm {α : Type} (le : α → α → Bool) :
    ∀ l : List α, List.Perm (sortByL le l) l := by
  intro l
  induction l with
  | nil => rfl
  | cons y t ih =>
    exact List.Perm.trans (insertByL_perm le y (sortByL le t)) (List.Perm.cons y ih)

theorem insertByL_pairwise {α : Type} (le : α → α → Bool)
    (htot : ∀ a b, le a b = true ∨ le b a = true)
    (htrans : ∀ a b c, le a b = true → le b c = true → le a c = true) (x : α) :
    ∀ l : List α, l.Pairwise (fun a b => le a b = true) →
      (insertByL le x l).Pairwise (fun a b => le a b = true) := by
  intro l
  induction l with
  | nil => intro _; simp [insertByL]
  | cons y t ih =>
    intro hs
    rw [List.pairwise_cons] at hs
    obtain ⟨hhead, htail⟩ := hs
    by_cases h : le x y
    · rw [insertByL, if_pos h]
      refine List.Pairwise.cons ?_ (List.Pairwise.cons hhead htail)
      intro b hb
      rcases List.mem_cons.mp hb with hb | hb
      · exact hb ▸ h
      · exact htrans x y b h (hhead b hb)
    · rw [insertByL, if_neg h]
      refine List.Pairwise.cons ?_ (ih htail)
      intro b hb
      have hyx : le y x = true := by
        rcases htot x y with h1 | h1
        · exact absurd h1 h
        · exact h1
      have hmem := (insertByL_perm le x t).mem_iff.mp hb
      rcases List.mem_cons.mp hmem with hb2 | hb2
      · exact hb2 ▸ hyx
      · exact hhead b hb2

theorem sortByL_pairwise {α : Type} (le : α → α → Bool)
    (htot : ∀ a b, le a b = true ∨ le b a = true)
    (htrans : ∀ a b c, le a b = true → le b c = true → le a c = true) :
    ∀ l : List α, (sortByL le l).Pairwise (fun a b => le a b = true) := by
  intro l
  induction l with
  | nil => simp [sortByL]
  | cons y t ih => exact insertByL_pairwise le htot htrans y (sortByL le t) ih

theorem slookup_mem {α : Type} {k : String} {v : α} {l : List (String × α)}
    (h : slookup k l = some v) : (k, v) ∈ l := by
  induction l with
  | nil => simp [slookup] at h
  | cons p t ih =>
    obtain ⟨k1, v1⟩ := p
    by_cases heq : k = k1
    · rw [slookup, if_pos heq, Option.some_inj] at h
      rw [heq, h]
      exact List.mem_cons_self _ _
    · rw [slookup, if_neg heq] at h
      exact List.mem_cons_of_mem _ (ih h)

theorem slookup_none_of_lt {α : Type} {k : String} {l : List (String × α)}
    (hlt : ∀ p ∈ l, k < p.1) : slookup k l = none := by
  cases hopt : slookup k l with
  | none => rfl
  | some v =>
    have hmem := slookup_mem hopt
    have := hlt _ hmem
    simp at this

/-- Any entry of `supsert k f t` either has key `k` or was an entry of `t`;
the value at key `k` is `f` of some option drawn from `t`. -/
theorem supsert_mem {α : Type} (k : String) (f : Option α → α) :
    ∀ (t : List (String × α)) (b : String × α), b ∈ supsert k f t →
      b ∈ t ∨ b = (k, f none) ∨ ∃ v, (k, v) ∈ t ∧ b = (k, f (some v)) := by
  intro t
  induction t with
  | nil =>
    intro b hb
    simp only [supsert, List.mem_singleton] at hb
    exact Or.inr (Or.inl hb)
  | cons p t2 ih2 =>
    intro b hb
    obtain ⟨k1, v⟩ := p
    by_cases hlt : k < k1
    · rw [supsert, if_pos hlt] at hb
      rcases List.mem_cons.mp hb with hb | hb
      · exact Or.inr (Or.inl hb)
      · exact Or.inl hb
    · by_cases heq : k = k1
      · rw [supsert, if_neg hlt, if_pos heq] at hb
        rcases List.mem_cons.mp hb with hb | hb
        · exact Or.inr (Or.inr ⟨v, heq ▸ List.mem_cons_self _ _, hb⟩)
        · exact Or.inl (List.mem_cons_of_mem _ hb)
      · rw [supsert, if_neg hlt, if_neg heq] at hb
        rcases List.mem_cons.mp hb with hb | hb
        · rw [hb]; exact Or.inl (List.mem_cons_self _ _)
        · rcases ih2 b hb with h2 | h2 | ⟨v2, hv2, h2⟩
          · exact Or.inl (List.mem_cons_of_mem _ h2)
          · exact Or.inr (Or.inl h2)
          · exact Or.inr (Or.inr ⟨v2, List.mem_cons_of_mem _ hv2, h2⟩)

theorem supsert_key_mem {α : Type} {k : String} {f : Option α → α}
    {t : List (String × α)} {b : String × α} (hb : b ∈ supsert k f t) :
    b.1 = k ∨ b ∈ t := by
  rcases supsert_mem k f t b hb with h | h | ⟨v, _, h⟩
  · exact Or.inr h
  · subst h; exact Or.inl rfl
  · subst h; exact Or.inl rfl

theorem slookup_supsert_self {α : Type} (k : String) (f : Option α → α)
    (l : List (String × α)) (hs : SortedKeys l) :
    slookup k (supsert k f l) = some (f (slookup k l)) := by
  induction l with
  | nil => simp [supsert, slookup]
  | cons p t ih =>
    obtain ⟨k1, v⟩ := p
    rw [SortedKeys, List.pairwise_cons] at hs
    obtain ⟨hhead, htail⟩ := hs
    by_cases hlt : k < k1
    · have hnone : slookup k ((k1, v) :: t) = none := by
        apply slookup_none_of_lt
        intro p hp
        rcases List.mem_cons.mp hp with hp | hp
        · exact hp ▸ hlt
        · exact lt_trans hlt (hhead p hp)
      rw [supsert, if_pos hlt, hnone, slookup, if_pos rfl]
    · by_cases heq : k = k1
      · rw [supsert, if_neg hlt, if_pos heq, slookup, if_pos rfl, slookup, if_pos heq]
      · rw [supsert, if_neg hlt, if_neg heq, slookup, if_neg heq, slookup, if_neg heq]
        exact ih htail

theorem slookup_supsert_ne {α : Type} (k k2 : String) (f : Option α → α)
    (l : List (String × α)) (hne : k2 ≠ k) :
    slookup k2 (supsert k f l) = slookup k2 l := by
  induction l with
  | nil => simp [supsert, slookup, hne]
  | cons p t ih =>
    obtain ⟨k1, v⟩ := p
    by_cases hlt : k < k1
    · rw [supsert, if_pos hlt, slookup, if_neg hne]
    · by_cases heq : k = k1
      · rw [supsert, if_neg hlt, if_pos heq, slookup, if_neg hne, slookup,
          if_neg (heq ▸ hne)]
      · by_cases h2 : k2 = k1
        · rw [supsert, if_neg hlt, if_neg heq, slookup, if_pos h2, slookup, if_pos h2]
        · rw [supsert, if_neg hlt, if_neg heq, slookup, if_neg h2, slookup, if_neg h2]
          exact ih

theorem supsert_sortedKeys {α : Type} (k : String) (f : Option α → α)
    (l : List (String × α)) (h : SortedKeys l) : SortedKeys (supsert k f l) := by
  induction l with
  | nil => simp [supsert, SortedKeys]
  | cons p t ih =>
    obtain ⟨k1, v⟩ := p
    rw [SortedKeys, List.pairwise_cons] at h
    obtain ⟨hhead, htail⟩ := h
    by_cases hlt : k < k1
    · rw [SortedKeys]
      rw [supsert, if_pos hlt]
      refine List.Pairwise.cons ?_ (List.Pairwise.cons hhead htail)
      intro b hb
      rcases List.mem_cons.mp hb with hb | hb
      · exact hb ▸ hlt
      · exact lt_trans hlt (hhead b hb)
    · by_cases heq : k = k1
      · subst heq
        rw [SortedKeys, supsert, if_neg hlt, if_pos rfl]
        exact List.Pairwise.cons hhead htail
      · have hk1k : k1 < k := by
          rcases lt_trichotomy k k1 with h1 | h1 | h1
          · exact absurd h1 hlt
          · exact absurd h1 heq
          · exact h1
        rw [SortedKeys, supsert, if_neg hlt, if_neg heq]
        refine List.Pairwise.cons ?_ (ih htail)
        intro b hb
        rcases supsert_key_mem hb with hmem | hmem
        · exact hmem ▸ hk1k
        · exact hhead b hmem

/-- Canonical representatives are determined by their lookup function. -/
theorem slookup_ext {α : Type} :
    ∀ (a b : List (String × α)), SortedKeys a → SortedKeys b →
      (∀ k, slookup k a = slookup k b) → a = b := by
  intro a
  induction a with
  | nil =>
    intro b _ hb h
    cases b with
    | nil => rfl
    | cons p t =>
      have := h p.1
      rw [slookup] at this
      simp [slookup, if_pos rfl] at this
  | cons p t ih =>
    intro b ha hb h
    obtain ⟨ka, va⟩ := p
    cases b with
    | nil =>
      have := h ka
      simp [slookup, if_pos rfl] at this
    | cons q u =>
      obtain ⟨kb, vb⟩ := q
      rw [SortedKeys, List.pairwise_cons] at ha hb
      obtain ⟨hahead, hatail⟩ := ha
      obtain ⟨hbhead, hbtail⟩ := hb
      have hka : slookup ka ((kb, vb) :: u) = some va := by
        rw [← h ka, slookup, if_pos rfl]
      have hkb : slookup kb ((ka, va) :: t) = some vb := by
        rw [h kb, slookup, if_pos rfl]
      have hableb : ¬ kb < ka := by
        intro hlt
        rcases List.mem_cons.mp (slookup_mem hkb) with hmem | hmem
        · have : kb = ka := congrArg Prod.fst hmem
          exact absurd (this ▸ hlt) (lt_irrefl ka)
        · exact absurd hlt (lt_asymm (hahead _ hmem))
      have hbalea : ¬ ka < kb := by
        intro hlt
        rcases List.mem_cons.mp (slookup_mem hka) with hmem | hmem
        · have : ka = kb := congrArg Prod.fst hmem
          exact absurd (this ▸ hlt) (lt_irrefl kb)
        · exact absurd hlt (lt_asymm (hbhead _ hmem))
      have hkeq : ka = kb := le_antisymm (not_lt.mp hableb) (not_lt.mp hbalea)
      subst hkeq
      rw [slookup, if_pos rfl, Option.some_inj] at hka
      subst hka
      have htail : t = u := by
        apply ih u hatail hbtail
        intro k
        by_cases hk : k = ka
        · subst hk
          rw [slookup_none_of_lt (fun p hp => hahead p hp),
            slookup_none_of_lt (fun p hp => hbhead p hp)]
        · have := h k
          rw [slookup, if_neg hk, slookup, if_neg hk] at this
          exact this
      rw [htail]

theorem smergeMax_sortedKeys (b a : List (String × Nat)) (ha : SortedKeys a) :
    SortedKeys (smergeMax a b) := by
  induction b generalizing a with
  | nil => exact ha
  | cons p t ih =>
    rw [smergeMax, List.foldl_cons]
    exact ih _ (supsert_sortedKeys _ _ _ ha)

theorem slookup_smergeMax (b a : List (String × Nat)) (ha : SortedKeys a)
    (hb : SortedKeys b) (k : String) :
    slookup k (smergeMax a b) = maxOpt (slookup k a) (slookup k b) := by
  induction b generalizing a with
  | nil =>
    cases h : slookup k a <;> simp [smergeMax, slookup, maxOpt, h]
  | cons p t ih =>
    obtain ⟨kb, vb⟩ := p
    rw [SortedKeys, List.pairwise_cons] at hb
    obtain ⟨hbhead, hbtail⟩ := hb
    have hstep : smergeMax a ((kb, vb) :: t)
        = smergeMax (supsert kb (fun o => max (o.getD 0) vb) a) t := by
      rw [smergeMax, List.foldl_cons]; rfl
    rw [hstep, ih _ (supsert_sortedKeys _ _ _ ha) hbtail]
    by_cases hk : k = kb
    · subst hk
      have htnone : slookup k t = none :=
        slookup_none_of_lt (fun p hp => hbhead p hp)
      rw [htnone, slookup_supsert_self _ _ _ ha, slookup, if_pos rfl]
      cases h : slookup k a <;> simp [maxOpt, h]
    · rw [slookup_supsert_ne _ _ _ _ hk, slookup, if_neg hk]

theorem smergeMax_comm (a b : List (String × Nat)) (ha : SortedKeys a)
    (hb : SortedKeys b) : smergeMax a b = smergeMax b a := by
  apply slookup_ext _ _ (smergeMax_sortedKeys b a ha) (smergeMax_sortedKeys a b hb)
  intro k
  rw [slookup_smergeMax _ _ ha hb, slookup_smergeMax _ _ hb ha]
  cases hx : slookup k a <;> cases hy : slookup k b <;> simp [maxOpt, Nat.max_comm]

theorem ssum_supsert_ge (k : String) (f : Option Nat → Nat)
    (hf : ∀ v, v ≤ f (some v)) :
    ∀ l : List (String × Nat), ssum l ≤ ssum (supsert k f l) := by
  intro l
  induction l with
  | nil => simp [supsert, ssum]
  | cons p t ih =>
    obtain ⟨k1, v⟩ := p
    by_cases hlt : k < k1
    · rw [supsert, if_pos hlt]
      simp [ssum]
    · by_cases heq : k = k1
      · rw [supsert, if_neg hlt, if_pos heq]
        simp only [ssum, List.map_cons, List.sum_cons]
        exact Nat.add_le_add (hf v) le_rfl
      · rw [supsert, if_neg hlt, if_neg heq]
        simp only [ssum, List.map_cons, List.sum_cons] at ih ⊢
        exact Nat.add_le_add le_rfl ih

theorem ssum_supsert_add (k : String) (d : Nat) :
    ∀ l : List (String × Nat),
      ssum (supsert k (fun o => o.getD 0 + d) l) = ssum l + d := by
  intro l
  induction l with
  | nil => simp [supsert, ssum]
  | cons p t ih =>
    obtain ⟨k1, v⟩ := p
    by_cases hlt : k < k1
    · rw [supsert, if_pos hlt]
      simp [ssum]
      omega
    · by_cases heq : k = k1
      · rw [supsert, if_neg hlt, if_pos heq]
        simp [ssum]
        omega
      · rw [supsert, if_neg hlt, if_neg heq]
        simp only [ssum, List.map_cons, List.sum_cons] at ih ⊢
        omega

theorem ssum_smergeMax_ge (b a : List (String × Nat)) :
    ssum a ≤ ssum (smergeMax a b) := by
  induction b generalizing a with
  | nil => exact le_rfl
  | cons p t ih =>
    rw [smergeMax, List.foldl_cons]
    calc ssum a ≤ ssum (supsert p.1 (fun o => max (o.getD 0) p.2) a) :=
          ssum_supsert_ge _ _ (fun v => Nat.le_max_left v p.2) a
      _ ≤ _ := ih _

theorem supsert_values_P {α : Type} (P : α → Prop) (k : String) (f : Option α → α)
    (l : List (String × α)) (h : ∀ p ∈ l, P p.2) (hnone : P (f none))
    (hsome : ∀ v, (k, v) ∈ l → P (f (some v))) :
    ∀ p ∈ supsert k f l, P p.2 := by
  intro p hp
  rcases supsert_mem k f l p hp with hm | hm | ⟨v, hv, hm⟩
  · exact h p hm
  · rw [hm]; exact hnone
  · rw [hm]; exact hsome v hv

theorem sunion_nil_eq (l : List String) (h : SortedStrings l) : sunion [] l = l := by
  apply sortedStrings_ext _ _ (sunion_sorted l [] (by simp [SortedStrings])) h
  intro x
  rw [mem_sunion]
  simp

theorem gcounter_merge_wf (a b : GCounter) (ha : SortedKeys a.counts) :
    SortedKeys (a.merge b).counts :=
  smergeMax_sortedKeys b.counts a.counts ha

theorem gcounter_merge_comm (a b : GCounter) (ha : SortedKeys a.counts)
    (hb : SortedKeys b.counts) : a.merge b = b.merge a :=
  congrArg GCounter.mk (smergeMax_comm a.counts b.counts ha hb)

theorem pncounter_merge_comm (a b : PNCounter)
    (ha : SortedKeys a.positive.counts ∧ SortedKeys a.negative.counts)
    (hb : SortedKeys b.positive.counts ∧ SortedKeys b.negative.counts) :
    a.merge b = b.merge a := by
  rw [PNCounter.merge, PNCounter.merge,
    gcounter_merge_comm a.positive b.positive ha.1 hb.1,
    gcounter_merge_comm a.negative b.negative ha.2 hb.2]

theorem addedMerge_sortedKeys (b a : List (String × List String)) (ha : SortedKeys a) :
    SortedKeys (addedMerge a b) := by
  induction b generalizing a with
  | nil => exact ha
  | cons p t ih =>
    rw [addedMerge, List.foldl_cons]
    exact ih _ (supsert_sortedKeys _ _ _ ha)

theorem slookup_addedMerge (b a : List (String × List String)) (ha : SortedKeys a)
    (hb : SortedKeys b) (k : String) :
    slookup k (addedMerge a b) = unionOpt (slookup k a) (slookup k b) := by
  induction b generalizing a with
  | nil =>
    cases h : slookup k a <;> simp [addedMerge, slookup, unionOpt, h]
  | cons p t ih =>
    obtain ⟨kb, vb⟩ := p
    rw [SortedKeys, List.pairwise_cons] at hb
    obtain ⟨hbhead, hbtail⟩ := hb
    have hstep : addedMerge a ((kb, vb) :: t)
        = addedMerge (supsert kb (fun o => sunion (o.getD []) vb) a) t := by
      rw [addedMerge, List.foldl_cons]; rfl
    rw [hstep, ih _ (supsert_sortedKeys _ _ _ ha) hbtail]
    by_cases hk : k = kb
    · subst hk
      have htnone : slookup k t = none :=
        slookup_none_of_lt (fun p hp => hbhead p hp)
      rw [htnone, slookup_supsert_self _ _ _ ha, slookup, if_pos rfl]
      cases h : slookup k a <;> simp [unionOpt, h]
    · rw [slookup_supsert_ne _ _ _ _ hk, slookup, if_neg hk]

theorem addedMerge_values_sorted (b a : List (String × List String))
    (ha : ∀ p ∈ a, SortedStrings p.2) :
    ∀ p ∈ addedMerge a b, SortedStrings p.2 := by
  induction b generalizing a with
  | nil => exact ha
  | cons p t ih =>
    rw [addedMerge, List.foldl_cons]
    apply ih
    apply supsert_values_P _ _ _ _ ha
    · exact sunion_sorted _ _ (by simp [SortedStrings])
    · intro v hv
      exact sunion_sorted _ _ (ha _ hv)

theorem orset_merge_comm (a b : ORSet)
    (ha : SortedKeys a.added ∧ (∀ p ∈ a.added, SortedStrings p.2) ∧ SortedStrings a.removed)
    (hb : SortedKeys b.added ∧ (∀ p ∈ b.added, SortedStrings p.2) ∧ SortedStrings b.removed) :
    a.merge b = b.merge a := by
  obtain ⟨has, hav, har⟩ := ha
  obtain ⟨hbs, hbv, hbr⟩ := hb
  have hadded : addedMerge a.added b.added = addedMerge b.added a.added := by
    apply slookup_ext _ _ (addedMerge_sortedKeys _ _ has) (addedMerge_sortedKeys _ _ hbs)
    intro k
    rw [slookup_addedMerge _ _ has hbs, slookup_addedMerge _ _ hbs has]
    cases hx : slookup k a.added with
    | none =>
      cases hy : slookup k b.added with
      | none => rfl
      | some w => simp [unionOpt, sunion_nil_eq w (hbv _ (slookup_mem hy))]
    | some v =>
      cases hy : slookup k b.added with
      | none => simp [unionOpt, sunion_nil_eq v (hav _ (slookup_mem hx))]
      | some w =>
        simp only [unionOpt, Option.some_inj]
        exact sunion_comm v w (hav _ (slookup_mem hx)) (hbv _ (slookup_mem hy))
  show ORSet.mk (addedMerge a.added b.added) (sunion a.removed b.removed)
    = ORSet.mk (addedMerge b.added a.added) (sunion b.removed a.removed)
  rw [hadded, sunion_comm a.removed b.removed har hbr]

theorem lww_merge_comm {T : Type} (a b : LWWRegister T)
    (hcompat : a.timestamp = b.timestamp → a.node_id = b.node_id → a.value = b.value) :
    a.merge b = b.merge a := by
  rw [LWWRegister.merge, LWWRegister.merge]
  rcases lt_trichotomy a.timestamp b.timestamp with hts | hts | hts
  · have h1 : b.timestamp > a.timestamp
        ∨ (b.timestamp = a.timestamp ∧ a.node_id < b.node_id) := Or.inl hts
    have h2 : ¬(a.timestamp > b.timestamp
        ∨ (a.timestamp = b.timestamp ∧ b.node_id < a.node_id)) := by
      intro h
      rcases h with h | h
      · exact absurd (lt_trans h hts) (lt_irrefl _)
      · exact absurd (h.1 ▸ hts) (lt_irrefl _)
    rw [if_pos h1, if_neg h2]
  · rcases lt_trichotomy a.node_id b.node_id with hn | hn | hn
    · have h1 : b.timestamp > a.timestamp
          ∨ (b.timestamp = a.timestamp ∧ a.node_id < b.node_id) := Or.inr ⟨hts.symm, hn⟩
      have h2 : ¬(a.timestamp > b.timestamp
          ∨ (a.timestamp = b.timestamp ∧ b.node_id < a.node_id)) := by
        intro h
        rcases h with h | h
        · exact absurd (hts ▸ h) (lt_irrefl _)
        · exact absurd hn (lt_asymm h.2)
      rw [if_pos h1, if_neg h2]
    · have hv := hcompat hts hn
      have h1 : ¬(b.timestamp > a.timestamp
          ∨ (b.timestamp = a.timestamp ∧ a.node_id < b.node_id)) := by
        intro h
        rcases h with h | h
        · exact absurd (hts ▸ h) (lt_irrefl _)
        · exact absurd (hn ▸ h.2) (lt_irrefl _)
      have h2 : ¬(a.timestamp > b.timestamp
          ∨ (a.timestamp = b.timestamp ∧ b.node_id < a.node_id)) := by
        intro h
        rcases h with h | h
        · exact absurd (hts ▸ h) (lt_irrefl _)
        · exact absurd (hn ▸ h.2) (lt_irrefl _)
      rw [if_neg h1, if_neg h2]
      obtain ⟨av, ats, an⟩ := a
      obtain ⟨bv, bts, bn⟩ := b
      simp only at hts hn hv
      rw [hts, hn, hv]
    · have h1 : ¬(b.timestamp > a.timestamp
          ∨ (b.timestamp = a.timestamp ∧ a.node_id < b.node_id)) := by
        intro h
        rcases h with h | h
        · exact absurd (hts ▸ h) (lt_irrefl _)
        · exact absurd hn (lt_asymm h.2)
      have h2 : a.timestamp > b.timestamp
          ∨ (a.timestamp = b.timestamp ∧ b.node_id < a.node_id) := Or.inr ⟨hts, hn⟩
      rw [if_neg h1, if_pos h2]
  · have h1 : ¬(b.timestamp > a.timestamp
        ∨ (b.timestamp = a.timestamp ∧ a.node_id < b.node_id)) := by
      intro h
      rcases h with h | h
      · exact absurd (lt_trans h hts) (lt_irrefl _)
      · exact absurd (h.1 ▸ hts) (lt_irrefl _)
    have h2 : a.timestamp > b.timestamp
        ∨ (a.timestamp = b.timestamp ∧ b.node_id < a.node_id) := Or.inl hts
    rw [if_neg h1, if_pos h2]

theorem crdtMap_merge_def (m other : CRDTMap) :
    m.merge other
      = ⟨crdtEntriesMerge m.entries other.entries,
          m.vector_clock.merge other.vector_clock⟩ := rfl

theorem slookup_mergeEntryStep_self (acc : List (String × CRDTValue)) (k : String)
    (ov : CRDTValue) (ha : SortedKeys acc) :
    slookup k (mergeEntryStep acc k ov)
      = some (match slookup k acc with
          | some x => mergeVal x ov
          | none => ov) := by
  unfold mergeEntryStep
  cases hx : slookup k acc with
  | none =>
    cases ov <;> simp [slookup_supsert_self _ _ _ ha, hx, mergeVal]
  | some x =>
    cases x <;> cases ov <;>
      simp [slookup_supsert_self _ _ _ ha, hx, mergeVal]

theorem slookup_mergeEntryStep_ne (acc : List (String × CRDTValue)) (k : String)
    (ov : CRDTValue) (k2 : String) (hne : k2 ≠ k) :
    slookup k2 (mergeEntryStep acc k ov) = slookup k2 acc := by
  unfold mergeEntryStep
  cases hx : slookup k acc with
  | none => cases ov <;> simp [slookup_supsert_ne _ _ _ _ hne]
  | some x => cases x <;> cases ov <;> simp [slookup_supsert_ne _ _ _ _ hne]

theorem mergeEntryStep_sortedKeys (acc : List (String × CRDTValue)) (k : String)
    (ov : CRDTValue) (ha : SortedKeys acc) : SortedKeys (mergeEntryStep acc k ov) := by
  unfold mergeEntryStep
  cases hx : slookup k acc with
  | none => cases ov <;> exact supsert_sortedKeys _ _ _ ha
  | some x => cases x <;> cases ov <;> first
    | exact supsert_sortedKeys _ _ _ ha
    | exact ha

theorem crdtEntriesMerge_sortedKeys (b a : List (String × CRDTValue))
    (ha : SortedKeys a) : SortedKeys (crdtEntriesMerge a b) := by
  induction b generalizing a with
  | nil => exact ha
  | cons p t ih =>
    rw [crdtEntriesMerge, List.foldl_cons]
    exact ih _ (mergeEntryStep_sortedKeys _ _ _ ha)

theorem slookup_crdtEntriesMerge (b a : List (String × CRDTValue)) (ha : SortedKeys a)
    (hb : SortedKeys b) (k : String) :
    slookup k (crdtEntriesMerge a b) = mergeOpt (slookup k a) (slookup k b) := by
  induction b generalizing a with
  | nil =>
    cases h : slookup k a <;> simp [crdtEntriesMerge, slookup, mergeOpt, h]
  | cons p t ih =>
    obtain ⟨kb, vb⟩ := p
    rw [SortedKeys, List.pairwise_cons] at hb
    obtain ⟨hbhead, hbtail⟩ := hb
    have hstep : crdtEntriesMerge a ((kb, vb) :: t)
        = crdtEntriesMerge (mergeEntryStep a kb vb) t := by
      rw [crdtEntriesMerge, List.foldl_cons]; rfl
    rw [hstep, ih _ (mergeEntryStep_sortedKeys _ _ _ ha) hbtail]
    by_cases hk : k = kb
    · subst hk
      have htnone : slookup k t = none :=
        slookup_none_of_lt (fun p hp => hbhead p hp)
      rw [htnone, slookup_mergeEntryStep_self _ _ _ ha, slookup, if_pos rfl]
      cases h : slookup k a <;> simp [mergeOpt, h]
    · rw [slookup_mergeEntryStep_ne _ _ _ _ hk, slookup, if_neg hk]

theorem mergeVal_comm (x y : CRDTValue) (hx : WFValue x) (hy : WFValue y)
    (hsame : sameVariantB x y = true) (hagree : lwwAgreeB x y = true) :
    mergeVal x y = mergeVal y x := by
  cases x <;> cases y <;> simp [sameVariantB] at hsame
  · exact congrArg CRDTValue.GCounter (gcounter_merge_comm _ _ hx hy)
  · exact congrArg CRDTValue.PNCounter (pncounter_merge_comm _ _ hx hy)
  · simp only [lwwAgreeB, decide_eq_true_eq] at hagree
    exact congrArg CRDTValue.LWWRegister (lww_merge_comm _ _ hagree)
  · exact congrArg CRDTValue.ORSet (orset_merge_comm _ _ hx hy)

theorem crdtEntriesMerge_comm (a b : List (String × CRDTValue))
    (ha : SortedKeys a) (hav : ∀ p ∈ a, WFValue p.2)
    (hb : SortedKeys b) (hbv : ∀ p ∈ b, WFValue p.2)
    (hvar : ∀ p ∈ a, ∀ q ∈ b, p.1 = q.1 → sameVariantB p.2 q.2 = true)
    (hagree : ∀ p ∈ a, ∀ q ∈ b, p.1 = q.1 → lwwAgreeB p.2 q.2 = true) :
    crdtEntriesMerge a b = crdtEntriesMerge b a := by
  apply slookup_ext _ _ (crdtEntriesMerge_sortedKeys b a ha)
    (crdtEntriesMerge_sortedKeys a b hb)
  intro k
  rw [slookup_crdtEntriesMerge _ _ ha hb, slookup_crdtEntriesMerge _ _ hb ha]
  cases hx : slookup k a with
  | none => cases hy : slookup k b <;> simp [mergeOpt]
  | some x =>
    cases hy : slookup k b with
    | none => simp [mergeOpt]
    | some y =>
      have hxm := slookup_mem hx
      have hym := slookup_mem hy
      simp only [mergeOpt, Option.some_inj]
      exact mergeVal_comm x y (hav _ hxm) (hbv _ hym)
        (hvar _ hxm _ hym rfl) (hagree _ hxm _ hym rfl)

/-! ### Well-formedness is preserved by every mutator -/

theorem supsert_const_values {α : Type} (P : α → Prop) (k : String) (v : α)
    (l : List (String × α)) (h : ∀ p ∈ l, P p.2) (hv : P v) :
    ∀ p ∈ supsert k (fun _ => v) l, P p.2 :=
  supsert_values_P P k _ l h hv (fun _ _ => hv)

theorem wfValue_getD (entries : List (String × CRDTValue)) (key : String)
    (d : CRDTValue) (hv : ∀ p ∈ entries, WFValue p.2) (hd : WFValue d) :
    WFValue ((slookup key entries).getD d) := by
  cases hx : slookup key entries with
  | none => exact hd
  | some x => exact hv _ (slookup_mem hx)

theorem gcounter_new_wf : WFValue (CRDTValue.GCounter GCounter.new) :=
  List.Pairwise.nil

theorem pncounter_new_wf : WFValue (CRDTValue.PNCounter PNCounter.new) :=
  ⟨List.Pairwise.nil, List.Pairwise.nil⟩

theorem orset_new_wf : WFValue (CRDTValue.ORSet ORSet.new) :=
  ⟨List.Pairwise.nil, by simp [ORSet.new], List.Pairwise.nil⟩

theorem gcounter_increment_wf (c : GCounter) (n : String) (d : Nat)
    (h : WFValue (CRDTValue.GCounter c)) :
    WFValue (CRDTValue.GCounter (c.increment n d)) :=
  supsert_sortedKeys _ _ _ h

theorem pncounter_increment_wf (c : PNCounter) (n : String) (d : Nat)
    (h : WFValue (CRDTValue.PNCounter c)) :
    WFValue (CRDTValue.PNCounter (c.increment n d)) :=
  ⟨supsert_sortedKeys _ _ _ h.1, h.2⟩

theorem pncounter_decrement_wf (c : PNCounter) (n : String) (d : Nat)
    (h : WFValue (CRDTValue.PNCounter c)) :
    WFValue (CRDTValue.PNCounter (c.decrement n d)) :=
  ⟨h.1, supsert_sortedKeys _ _ _ h.2⟩

theorem orset_add_wf (s : ORSet) (v uid : String)
    (h : WFValue (CRDTValue.ORSet s)) :
    WFValue (CRDTValue.ORSet (s.add v uid)) := by
  obtain ⟨hk, hvals, hrem⟩ := h
  refine ⟨supsert_sortedKeys _ _ _ hk, ?_, hrem⟩
  apply supsert_values_P _ _ _ _ hvals
  · exact sinsert_sorted _ _ (List.Pairwise.nil)
  · intro w hw
    exact sinsert_sorted _ _ (hvals _ hw)

theorem orset_remove_wf (s : ORSet) (v : String)
    (h : WFValue (CRDTValue.ORSet s)) :
    WFValue (CRDTValue.ORSet (s.remove v)) := by
  obtain ⟨hk, hvals, hrem⟩ := h
  rw [ORSet.remove]
  cases slookup v s.added with
  | none => exact ⟨hk, hvals, hrem⟩
  | some ids => exact ⟨hk, hvals, sunion_sorted _ _ hrem⟩

theorem orset_merge_wf (a b : ORSet) (h : WFValue (CRDTValue.ORSet a)) :
    WFValue (CRDTValue.ORSet (a.merge b)) := by
  obtain ⟨hk, hvals, hrem⟩ := h
  exact ⟨addedMerge_sortedKeys _ _ hk, addedMerge_values_sorted _ _ hvals,
    sunion_sorted _ _ hrem⟩

theorem mergeEntryStep_values (acc : List (String × CRDTValue)) (k : String)
    (ov : CRDTValue) (hav : ∀ p ∈ acc, WFValue p.2) (hov : WFValue ov) :
    ∀ p ∈ mergeEntryStep acc k ov, WFValue p.2 := by
  unfold mergeEntryStep
  cases hx : slookup k acc with
  | none =>
    cases ov <;> exact supsert_const_values _ _ _ _ hav hov
  | some x =>
    have hxw : WFValue x := hav _ (slookup_mem hx)
    cases x with
    | GCounter a =>
      cases ov <;> try exact hav
      exact supsert_const_values _ _ _ _ hav (smergeMax_sortedKeys _ _ hxw)
    | PNCounter a =>
      cases ov <;> try exact hav
      exact supsert_const_values _ _ _ _ hav
        ⟨smergeMax_sortedKeys _ _ hxw.1, smergeMax_sortedKeys _ _ hxw.2⟩
    | LWWRegister a =>
      cases ov <;> try exact hav
      exact supsert_const_values _ _ _ _ hav trivial
    | ORSet a =>
      cases ov <;> try exact hav
      exact supsert_const_values _ _ _ _ hav (orset_merge_wf a _ hxw)

theorem crdtEntriesMerge_values (b a : List (String × CRDTValue))
    (hav : ∀ p ∈ a, WFValue p.2) (hbv : ∀ p ∈ b, WFValue p.2) :
    ∀ p ∈ crdtEntriesMerge a b, WFValue p.2 := by
  induction b generalizing a with
  | nil => exact hav
  | cons p t ih =>
    rw [crdtEntriesMerge, List.foldl_cons]
    exact ih _
      (mergeEntryStep_values _ _ _ hav (hbv _ (List.mem_cons_self _ _)))
      (fun q hq => hbv _ (List.mem_cons_of_mem _ hq))

theorem applyOpToEntries_wf (entries : List (String × CRDTValue)) (op : Operation)
    (hs : SortedKeys entries) (hv : ∀ p ∈ entries, WFValue p.2) :
    SortedKeys (applyOpToEntries entries op)
      ∧ ∀ p ∈ applyOpToEntries entries op, WFValue p.2 := by
  cases op with
  | GCounterIncrement key node_id delta =>
    cases hx : slookup key entries with
    | none =>
      simp only [applyOpToEntries, hx, Option.getD_none]
      exact ⟨supsert_sortedKeys _ _ _ hs,
        supsert_const_values _ _ _ _ hv (gcounter_increment_wf _ _ _ gcounter_new_wf)⟩
    | some x =>
      have hxw := hv _ (slookup_mem hx)
      cases x <;> simp only [applyOpToEntries, hx, Option.getD_some] <;>
        first
          | exact ⟨hs, hv⟩
          | exact ⟨supsert_sortedKeys _ _ _ hs,
              supsert_const_values _ _ _ _ hv (gcounter_increment_wf _ _ _ hxw)⟩
  | PNCounterIncrement key node_id delta =>
    cases hx : slookup key entries with
    | none =>
      simp only [applyOpToEntries, hx, Option.getD_none]
      exact ⟨supsert_sortedKeys _ _ _ hs,
        supsert_const_values _ _ _ _ hv (pncounter_increment_wf _ _ _ pncounter_new_wf)⟩
    | some x =>
      have hxw := hv _ (slookup_mem hx)
      cases x <;> simp only [applyOpToEntries, hx, Option.getD_some] <;>
        first
          | exact ⟨hs, hv⟩
          | exact ⟨supsert_sortedKeys _ _ _ hs,
              supsert_const_values _ _ _ _ hv (pncounter_increment_wf _ _ _ hxw)⟩
  | PNCounterDecrement key node_id delta =>
    cases hx : slookup key entries with
    | none =>
      simp only [applyOpToEntries, hx, Option.getD_none]
      exact ⟨supsert_sortedKeys _ _ _ hs,
        supsert_const_values _ _ _ _ hv (pncounter_decrement_wf _ _ _ pncounter_new_wf)⟩
    | some x =>
      have hxw := hv _ (slookup_mem hx)
      cases x <;> simp only [applyOpToEntries, hx, Option.getD_some] <;>
        first
          | exact ⟨hs, hv⟩
          | exact ⟨supsert_sortedKeys _ _ _ hs,
              supsert_const_values _ _ _ _ hv (pncounter_decrement_wf _ _ _ hxw)⟩
  | LwwRegisterSet key value timestamp node_id =>
    cases hx : slookup key entries with
    | none =>
      simp only [applyOpToEntries, hx, Option.getD_none]
      exact ⟨supsert_sortedKeys _ _ _ hs, supsert_const_values _ _ _ _ hv trivial⟩
    | some x =>
      cases x <;> simp only [applyOpToEntries, hx, Option.getD_some] <;>
        first
          | exact ⟨hs, hv⟩
          | exact ⟨supsert_sortedKeys _ _ _ hs, supsert_const_values _ _ _ _ hv trivial⟩
  | OrSetAdd key value unique_id =>
    cases hx : slookup key entries with
    | none =>
      simp only [applyOpToEntries, hx, Option.getD_none]
      exact ⟨supsert_sortedKeys _ _ _ hs,
        supsert_const_values _ _ _ _ hv (orset_add_wf _ _ _ orset_new_wf)⟩
    | some x =>
      have hxw := hv _ (slookup_mem hx)
      cases x <;> simp only [applyOpToEntries, hx, Option.getD_some] <;>
        first
          | exact ⟨hs, hv⟩
          | exact ⟨supsert_sortedKeys _ _ _ hs,
              supsert_const_values _ _ _ _ hv (orset_add_wf _ _ _ hxw)⟩
  | OrSetRemove key value =>
    cases hx : slookup key entries with
    | none =>
      simp only [applyOpToEntries, hx]
      exact ⟨hs, hv⟩
    | some x =>
      have hxw := hv _ (slookup_mem hx)
      cases x <;> simp only [applyOpToEntries, hx] <;>
        first
          | exact ⟨hs, hv⟩
          | exact ⟨supsert_sortedKeys _ _ _ hs,
              supsert_const_values _ _ _ _ hv (orset_remove_wf _ _ hxw)⟩

/-- Every reachable sync state carries a canonically represented CRDT map. -/
theorem reach_wf (s : SyncState) (h : Reachable s) : WFMap s.crdt_map := by
  induction h with
  | new node_id => exact ⟨List.Pairwise.nil, by simp [SyncState.new, CRDTMap.new]⟩
  | apply_operation s fresh_id now_ts op hr ih =>
    obtain ⟨hs, hv⟩ := ih
    exact ⟨(applyOpToEntries_wf _ op hs hv).1, (applyOpToEntries_wf _ op hs hv).2⟩
  | merge s other hr ho ihs iho =>
    obtain ⟨hs, hv⟩ := ihs
    obtain ⟨hos, hov⟩ := iho
    exact ⟨crdtEntriesMerge_sortedKeys _ _ hs, crdtEntriesMerge_values _ _ hv hov⟩

/-! ### Claim C2: the LWW merge rule -/

/-- C2: `LWWRegister::merge` adopts `other`'s value, timestamp and writer
if and only if `other.timestamp > self.timestamp`, or the timestamps are
equal and `other`'s writer is lexicographically greater than `self`'s; in
every other case `self`'s value, timestamp and writer are unchanged. -/
theorem lww_register_merge_adoption {T : Type} (a b : LWWRegister T) :
    (b.timestamp > a.timestamp ∨ (b.timestamp = a.timestamp ∧ a.node_id < b.node_id) →
      a.merge b = ⟨b.value, b.timestamp, b.node_id⟩)
    ∧ (¬(b.timestamp > a.timestamp ∨ (b.timestamp = a.timestamp ∧ a.node_id < b.node_id)) →
      a.merge b = a) := by
  constructor
  · intro h
    rw [LWWRegister.merge, if_pos h]
  · intro h
    rw [LWWRegister.merge, if_neg h]

/-- The LWW merge rule evaluated at a concrete adopting pair. -/
theorem lww_register_merge_adoption_witness :
    (LWWRegister.mk (T := String) (some "x") 3 "n1").merge ⟨some "y", 5, "n2"⟩
      = ⟨some "y", 5, "n2"⟩ :=
  (lww_register_merge_adoption ⟨some "x", 3, "n1"⟩ ⟨some "y", 5, "n2"⟩).1 (by decide)

/-! ### Claim C9: GCounter monotonicity -/

theorem gcounter_step_le (c : GCounter) (op : GCounterOp) :
    c.value ≤ (applyGCounterOp c op).value := by
  cases op with
  | increment n d =>
    show c.value ≤ (c.increment n d).value
    rw [GCounter.value, GCounter.value, GCounter.increment, ssum_supsert_add]
    omega
  | merge o =>
    exact ssum_smergeMax_ge o.counts c.counts

/-- C9: along any finite sequence of `increment` and `merge` steps, a
GCounter's value (the sum of its per-node contributions) never decreases
from one step to the next. -/
theorem gcounter_value_monotone (c : GCounter) (ops : List GCounterOp) (i : Nat) :
    (applyGCounterOps c (ops.take i)).value
      ≤ (applyGCounterOps c (ops.take (i + 1))).value := by
  rw [applyGCounterOps, applyGCounterOps, List.take_succ, List.foldl_append]
  cases h : ops[i]? with
  | none => simp
  | some op =>
    simp only [Option.toList, List.foldl_cons, List.foldl_nil]
    exact gcounter_step_le _ op

/-! ### Claim C4: `is_concurrent` and clock equality -/

/-- C4 counterexample: at the clocks `{a: 0}` and `{}` (identical after
removing zero entries, so the claim demands `is_concurrent = false`), the
claimed equivalence fails: the code compares the stored maps verbatim and
reports the pair as concurrent. -/
theorem vector_clock_is_concurrent_claim_cex :
    ¬ (VectorClock.is_concurrent ⟨[("a", 0)]⟩ ⟨[]⟩ = true ↔
        (VectorClock.happens_before ⟨[("a", 0)]⟩ ⟨[]⟩ = false
          ∧ VectorClock.happens_before ⟨[]⟩ ⟨[("a", 0)]⟩ = false
          ∧ stripZeros [("a", 0)] ≠ stripZeros [])) := by
  decide

/-- C4 (amended): `is_concurrent(u, v)` returns `true` if and only if
neither `happens_before` holds in either direction and the stored clock
maps differ verbatim — zero entries are significant, so clocks that agree
only after removing zero entries (such as `{a: 0}` versus `{}`) are
reported concurrent. -/
theorem vector_clock_is_concurrent_iff (u v : VectorClock)
    (hu : SortedKeys u.clocks) (hv : SortedKeys v.clocks) :
    VectorClock.is_concurrent u v = true ↔
      (VectorClock.happens_before u v = false
        ∧ VectorClock.happens_before v u = false ∧ u ≠ v) := by
  rw [VectorClock.is_concurrent]
  simp [Bool.and_eq_true, Bool.not_eq_true', and_assoc]

/-- The amended concurrency rule evaluated at the claim's own example pair:
`{a: 0}` and `{}` are concurrent. -/
theorem vector_clock_is_concurrent_iff_witness :
    VectorClock.is_concurrent ⟨[("a", 0)]⟩ ⟨[]⟩ = true :=
  (vector_clock_is_concurrent_iff ⟨[("a", 0)]⟩ ⟨[]⟩ (by decide) (by decide)).mpr
    ⟨by decide, by decide, by decide⟩

/-! ### Claim C5: ORSet re-add -/

/-- C5 counterexample: for an ORSet whose `removed` set already contains
`u2` (and whose `added["x"]` already records `u2`), the claimed sequence
`add(v, u1); remove(v); add(v, u2)` with `u1 ≠ u2` leaves `v` dead, so the
claim fails when quantified over every ORSet. -/
theorem orset_readd_claim_cex :
    ("u1" : String) ≠ "u2"
      ∧ ((((ORSet.mk [("x", ["u2"])] ["u2"]).add "x" "u1").remove "x").add "x" "u2").contains "x"
        = false := by
  decide

theorem slookup_supsert_self_exists {α : Type} (k : String) (f : Option α → α) :
    ∀ l : List (String × α),
      slookup k (supsert k f l) = some (f none)
        ∨ ∃ v0, (k, v0) ∈ l ∧ slookup k (supsert k f l) = some (f (some v0)) := by
  intro l
  induction l with
  | nil => left; simp [supsert, slookup]
  | cons p t ih =>
    obtain ⟨k1, v⟩ := p
    by_cases hlt : k < k1
    · left
      rw [supsert, if_pos hlt, slookup, if_pos rfl]
    · by_cases heq : k = k1
      · right
        exact ⟨v, heq ▸ List.mem_cons_self _ _, by rw [supsert, if_neg hlt, if_pos heq, slookup, if_pos rfl]⟩
      · rcases ih with h | ⟨v0, hv0, h⟩
        · left
          rw [supsert, if_neg hlt, if_neg heq, slookup, if_neg heq]
          exact h
        · right
          refine ⟨v0, List.mem_cons_of_mem _ hv0, ?_⟩
          rw [supsert, if_neg hlt, if_neg heq, slookup, if_neg heq]
          exact h

/-- C5 (amended): `add(v, u1); remove(v); add(v, u2)` leaves `v` live —
`contains(v)` returns `true` and `v` appears in `elements()` — provided the
minted uid `u2` is fresh: distinct from `u1`, not already in the set's
`removed` tombstones, and not already recorded for `v` in `added`. -/
theorem orset_readd_live (s : ORSet) (v u1 u2 : String) (h12 : u2 ≠ u1)
    (hrem : u2 ∉ s.removed) (hadd : ∀ p ∈ s.added, p.1 = v → u2 ∉ p.2) :
    (((s.add v u1).remove v).add v u2).contains v = true
      ∧ v ∈ (((s.add v u1).remove v).add v u2).elements := by
  set s1 := s.add v u1 with hs1
  have hu2s1 : ∀ ids, slookup v s1.added = some ids → u2 ∉ ids := by
    intro ids hids hmem
    rcases slookup_supsert_self_exists v (fun o => sinsert u1 (o.getD [])) s.added
      with h | ⟨v0, hv0, h⟩
    · rw [hs1] at hids
      rw [ORSet.add] at hids
      rw [h] at hids
      rw [Option.some_inj] at hids
      subst hids
      rcases (mem_sinsert u2 u1 _).mp hmem with h2 | h2
      · exact h12 h2
      · simp at h2
    · rw [hs1] at hids
      rw [ORSet.add] at hids
      rw [h] at hids
      rw [Option.some_inj] at hids
      subst hids
      rcases (mem_sinsert u2 u1 _).mp hmem with h2 | h2
      · exact h12 h2
      · simp only [Option.getD_some] at h2
        exact hadd _ hv0 rfl h2
  set s2 := s1.remove v with hs2
  have hadded2 : s2.added = s1.added := by
    rw [hs2, ORSet.remove]
    cases slookup v s1.added <;> rfl
  have hrem2 : u2 ∉ s2.removed := by
    rw [hs2, ORSet.remove]
    cases hids : slookup v s1.added with
    | none => exact hrem
    | some ids =>
      intro hmem
      rcases (mem_sunion u2 ids s.removed).mp hmem with h | h
      · exact hrem h
      · exact hu2s1 ids hids h
  set s3 := s2.add v u2 with hs3
  have hlook3 : ∃ w, slookup v s3.added = some (sinsert u2 w) := by
    rcases slookup_supsert_self_exists v (fun o => sinsert u2 (o.getD [])) s2.added
      with h | ⟨v0, _, h⟩
    · exact ⟨[], h⟩
    · exact ⟨v0, h⟩
  obtain ⟨w, hw⟩ := hlook3
  have hrem3 : s3.removed = s2.removed := by rw [hs3, ORSet.add]
  have hlive : (sinsert u2 w).any (fun id => !s3.removed.contains id) = true := by
    rw [List.any_eq_true]
    refine ⟨u2, (mem_sinsert u2 u2 w).mpr (Or.inl rfl), ?_⟩
    rw [Bool.not_eq_true', ← Bool.not_eq_true]
    intro hc
    rw [List.elem_iff] at hc
    rw [hrem3] at hc
    exact hrem2 hc
  constructor
  · rw [ORSet.contains]
    simp only [hw]
    exact hlive
  · rw [ORSet.elements, List.mem_filterMap]
    refine ⟨(v, sinsert u2 w), slookup_mem hw, ?_⟩
    simp only [hlive, if_pos]

/-- The amended re-add rule evaluated at a concrete fresh uid. -/
theorem orset_readd_live_witness :
    (((ORSet.new.add "x" "u1").remove "x").add "x" "u2").contains "x" = true
      ∧ "x" ∈ (((ORSet.new.add "x" "u1").remove "x").add "x" "u2").elements :=
  orset_readd_live ORSet.new "x" "u1" "u2" (by decide) (by decide) (by decide)

/-! ### Claim C10: variant-mismatched operations still tick the clock and log -/

theorem vc_get_increment (vc : VectorClock) (n : String) (h : SortedKeys vc.clocks) :
    (vc.increment n).get n = vc.get n + 1 := by
  rw [VectorClock.get, VectorClock.increment, VectorClock.get]
  show (slookup n (supsert n (fun o => o.getD 0 + 1) vc.clocks)).getD 0 = _
  rw [slookup_supsert_self _ _ _ h]
  cases slookup n vc.clocks <;> simp

theorem applyOpToEntries_mismatch (entries : List (String × CRDTValue)) (op : Operation)
    (hmm : variantMismatch entries op = true) : applyOpToEntries entries op = entries := by
  cases op with
  | GCounterIncrement key node_id delta =>
    rw [variantMismatch] at hmm
    cases hx : slookup (opKey (Operation.GCounterIncrement key node_id delta)) entries with
    | none => rw [hx] at hmm; simp at hmm
    | some v =>
      rw [hx] at hmm
      rw [opKey] at hx
      cases v <;> simp [valueVariantTag, opVariantTag] at hmm <;>
        simp [applyOpToEntries, hx]
  | PNCounterIncrement key node_id delta =>
    rw [variantMismatch] at hmm
    cases hx : slookup (opKey (Operation.PNCounterIncrement key node_id delta)) entries with
    | none => rw [hx] at hmm; simp at hmm
    | some v =>
      rw [hx] at hmm
      rw [opKey] at hx
      cases v <;> simp [valueVariantTag, opVariantTag] at hmm <;>
        simp [applyOpToEntries, hx]
  | PNCounterDecrement key node_id delta =>
    rw [variantMismatch] at hmm
    cases hx : slookup (opKey (Operation.PNCounterDecrement key node_id delta)) entries with
    | none => rw [hx] at hmm; simp at hmm
    | some v =>
      rw [hx] at hmm
      rw [opKey] at hx
      cases v <;> simp [valueVariantTag, opVariantTag] at hmm <;>
        simp [applyOpToEntries, hx]
  | LwwRegisterSet key value timestamp node_id =>
    rw [variantMismatch] at hmm
    cases hx : slookup (opKey (Operation.LwwRegisterSet key value timestamp node_id)) entries with
    | none => rw [hx] at hmm; simp at hmm
    | some v =>
      rw [hx] at hmm
      rw [opKey] at hx
      cases v <;> simp [valueVariantTag, opVariantTag] at hmm <;>
        simp [applyOpToEntries, hx]
  | OrSetAdd key value unique_id =>
    rw [variantMismatch] at hmm
    cases hx : slookup (opKey (Operation.OrSetAdd key value unique_id)) entries with
    | none => rw [hx] at hmm; simp at hmm
    | some v =>
      rw [hx] at hmm
      rw [opKey] at hx
      cases v <;> simp [valueVariantTag, opVariantTag] at hmm <;>
        simp [applyOpToEntries, hx]
  | OrSetRemove key value =>
    rw [variantMismatch] at hmm
    cases hx : slookup (opKey (Operation.OrSetRemove key value)) entries with
    | none => rw [hx] at hmm; simp at hmm
    | some v =>
      rw [hx] at hmm
      rw [opKey] at hx
      cases v <;> simp [valueVariantTag, opVariantTag] at hmm <;>
        simp [applyOpToEntries, hx]

/-- C10: applying an operation to a key that already holds a CRDT value of
a different variant leaves every entry of the map unchanged, yet still
increments the map's vector clock entry for the log owner by one and
appends exactly one new entry (carrying the updated clock snapshot) to the
op log. -/
theorem apply_operation_variant_mismatch_frame (s : SyncState) (fresh_id : String)
    (now_ts : Int) (op : Operation)
    (hclk : SortedKeys s.crdt_map.vector_clock.clocks)
    (hmm : variantMismatch s.crdt_map.entries op = true) :
    (s.apply_operation fresh_id now_ts op).crdt_map.entries = s.crdt_map.entries
    ∧ (s.apply_operation fresh_id now_ts op).crdt_map.vector_clock.get s.op_log.node_id
        = s.crdt_map.vector_clock.get s.op_log.node_id + 1
    ∧ (s.apply_operation fresh_id now_ts op).op_log.ops
        = s.op_log.ops
          ++ [⟨fresh_id, now_ts,
              s.crdt_map.vector_clock.increment s.op_log.node_id, op⟩] := by
  refine ⟨applyOpToEntries_mismatch _ _ hmm, ?_, rfl⟩
  exact vc_get_increment s.crdt_map.vector_clock s.op_log.node_id hclk

/-- The mismatch frame rule evaluated on a state holding an ORSet at the
key targeted by a counter increment. -/
theorem apply_operation_variant_mismatch_frame_witness :
    (mismatchBase.apply_operation "i2" 4
        (Operation.GCounterIncrement "k" "n1" 1)).crdt_map.entries
      = mismatchBase.crdt_map.entries :=
  (apply_operation_variant_mismatch_frame mismatchBase "i2" 4
    (Operation.GCounterIncrement "k" "n1" 1) (by decide) (by decide)).1

/-! ### Claim C6: `apply_changes` commits the prefix before a failing change -/

theorem applyChange_error_iff (s : SyncState) (e : Entropy) (c : Change) (m : String) :
    applyChange s e c = Except.error m ↔ changeFails c = some m := by
  obtain ⟨op, key, value, delta⟩ := c
  simp only [applyChange, changeFails]
  split <;> (try cases value) <;> simp_all

/-- C6: whenever `apply_changes` returns an error, there is an index `k`
such that the `k`-th change is the failing one (missing required field or
unknown op), the changes before `k` were all committed (re-running just
that prefix succeeds and produces exactly the returned state), the failing
change mutated nothing, and no later change was applied. -/
theorem apply_changes_prefix_commit :
    ∀ (cs : List Change) (s : SyncState) (es : List Entropy) (s2 : SyncState) (err : String),
      s.apply_changes es cs = (s2, some err) →
      ∃ k, k < cs.length
        ∧ (∃ c, cs[k]? = some c ∧ changeFails c = some err)
        ∧ s.apply_changes es (cs.take k) = (s2, none) := by
  intro cs
  induction cs with
  | nil =>
    intro s es s2 err h
    rw [SyncState.apply_changes] at h
    simp at h
  | cons c t ih =>
    intro s es s2 err h
    rw [SyncState.apply_changes] at h
    cases happ : applyChange s (es.headD default) c with
    | error msg =>
      rw [happ] at h
      rw [Prod.mk.injEq] at h
      obtain ⟨h1, h2⟩ := h
      rw [Option.some_inj] at h2
      refine ⟨0, by simp, ⟨c, by simp, ?_⟩, ?_⟩
      · exact h2 ▸ (applyChange_error_iff s (es.headD default) c msg).mp happ
      · rw [List.take_zero, SyncState.apply_changes, h1]
    | ok s1 =>
      rw [happ] at h
      obtain ⟨k, hk, ⟨c2, hc2, hfail⟩, hpre⟩ := ih s1 es.tail s2 err h
      refine ⟨k + 1, Nat.succ_lt_succ hk, ⟨c2, by simpa using hc2, hfail⟩, ?_⟩
      rw [List.take_succ_cons, SyncState.apply_changes, happ]
      exact hpre

/-- The prefix-commit rule evaluated on a request whose second change is an
`add` with a missing value. -/
theorem apply_changes_prefix_commit_witness :
    (SyncState.new "n1").apply_changes [] c6changes
        = (((SyncState.new "n1").apply_changes [] c6changes).1,
            some "Missing value for add operation")
    ∧ ∃ k, k < c6changes.length
        ∧ (∃ c, c6changes[k]? = some c
            ∧ changeFails c = some "Missing value for add operation")
        ∧ (SyncState.new "n1").apply_changes [] (c6changes.take k)
          = (((SyncState.new "n1").apply_changes [] c6changes).1, none) :=
  ⟨by decide,
    apply_changes_prefix_commit c6changes (SyncState.new "n1") []
      (((SyncState.new "n1").apply_changes [] c6changes).1)
      "Missing value for add operation" (by decide)⟩

/-! ### Claim C7: op log merge is a dedup union re-sorted by `(ts, id)` -/

theorem entryLE_total (a b : OpLogEntry) : entryLE a b = true ∨ entryLE b a = true := by
  rw [entryLE, entryLE, decide_eq_true_eq, decide_eq_true_eq]
  rcases lt_trichotomy a.ts b.ts with h | h | h
  · exact Or.inl (Or.inl h)
  · rcases le_total a.id b.id with h2 | h2
    · exact Or.inl (Or.inr ⟨h, h2⟩)
    · exact Or.inr (Or.inr ⟨h.symm, h2⟩)
  · exact Or.inr (Or.inl h)

theorem entryLE_trans (a b c : OpLogEntry) (h1 : entryLE a b = true)
    (h2 : entryLE b c = true) : entryLE a c = true := by
  rw [entryLE, decide_eq_true_eq] at h1 h2 ⊢
  rcases h1 with h1 | ⟨h1, h1b⟩ <;> rcases h2 with h2 | ⟨h2, h2b⟩
  · exact Or.inl (lt_trans h1 h2)
  · exact Or.inl (h2 ▸ h1)
  · exact Or.inl (h1 ▸ h2)
  · exact Or.inr ⟨h1.trans h2, le_trans h1b h2b⟩

theorem pushNewOps_eq_filter :
    ∀ (bs : List OpLogEntry), (bs.map OpLogEntry.id).Nodup →
      ∀ acc, pushNewOps acc bs
        = acc ++ bs.filter (fun e => !(acc.any (fun e2 => e2.id = e.id))) := by
  intro bs
  induction bs with
  | nil =>
    intro _ acc
    simp [pushNewOps]
  | cons e t ih =>
    intro hnd acc
    rw [List.map_cons, List.nodup_cons] at hnd
    obtain ⟨hid, hnd⟩ := hnd
    rw [pushNewOps, List.foldl_cons]
    by_cases hany : acc.any (fun e2 => decide (e2.id = e.id)) = true
    · rw [if_pos hany]
      have hrec := ih hnd acc
      rw [pushNewOps] at hrec
      rw [hrec, List.filter_cons]
      simp [hany]
    · rw [if_neg hany]
      have hrec := ih hnd (acc ++ [e])
      rw [pushNewOps] at hrec
      rw [hrec, List.filter_cons]
      have hcong : t.filter (fun x => !((acc ++ [e]).any (fun e2 => decide (e2.id = x.id))))
          = t.filter (fun x => !(acc.any (fun e2 => decide (e2.id = x.id)))) := by
        apply List.filter_congr
        intro x hx
        have hxe : e.id ≠ x.id := by
          intro hcontr
          exact hid (hcontr ▸ List.mem_map.mpr ⟨x, hx, rfl⟩)
        simp [List.any_append, hxe]
      rw [hcong]
      simp [hany, List.append_assoc]

/-- C7: `OpLog::merge` produces an op sequence sorted ascending by
`(ts, id)` whose entries are, up to order, `self`'s entries together with
the entries of `other` whose id does not already occur in `self` (assuming
`other` carries no duplicate ids, as the log invariant guarantees). -/
theorem oplog_merge_union_sorted (a b : OpLog)
    (hnd : (b.ops.map OpLogEntry.id).Nodup) :
    (a.merge b).ops.Pairwise (fun e1 e2 => entryLE e1 e2 = true)
    ∧ List.Perm (a.merge b).ops
        (a.ops ++ b.ops.filter (fun e => !(a.ops.any (fun e2 => e2.id = e.id)))) := by
  constructor
  · exact sortByL_pairwise entryLE entryLE_total entryLE_trans _
  · show List.Perm (sortByL entryLE (pushNewOps a.ops b.ops)) _
    rw [pushNewOps_eq_filter b.ops hnd a.ops]
    exact sortByL_perm entryLE _

/-- The merge rule evaluated on concrete logs sharing one entry id. -/
theorem oplog_merge_union_sorted_witness :
    ((OpLog.mk "n1" [⟨"a1", 5, ⟨[]⟩, Operation.OrSetRemove "k" "x"⟩]).merge
        ⟨"n2", [⟨"b1", 3, ⟨[]⟩, Operation.GCounterIncrement "c" "n2" 1⟩,
          ⟨"a1", 9, ⟨[]⟩, Operation.OrSetRemove "k" "y"⟩]⟩).ops.Pairwise
      (fun e1 e2 => entryLE e1 e2 = true)
    ∧ List.Perm
        ((OpLog.mk "n1" [⟨"a1", 5, ⟨[]⟩, Operation.OrSetRemove "k" "x"⟩]).merge
          ⟨"n2", [⟨"b1", 3, ⟨[]⟩, Operation.GCounterIncrement "c" "n2" 1⟩,
            ⟨"a1", 9, ⟨[]⟩, Operation.OrSetRemove "k" "y"⟩]⟩).ops
        ([⟨"a1", 5, ⟨[]⟩, Operation.OrSetRemove "k" "x"⟩]
          ++ [⟨"b1", 3, ⟨[]⟩, Operation.GCounterIncrement "c" "n2" 1⟩,
            ⟨"a1", 9, ⟨[]⟩, Operation.OrSetRemove "k" "y"⟩].filter
            (fun e => !([(⟨"a1", 5, ⟨[]⟩, Operation.OrSetRemove "k" "x"⟩ : OpLogEntry)].any
              (fun e2 => e2.id = e.id)))) :=
  oplog_merge_union_sorted ⟨"n1", [⟨"a1", 5, ⟨[]⟩, Operation.OrSetRemove "k" "x"⟩]⟩
    ⟨"n2", [⟨"b1", 3, ⟨[]⟩, Operation.GCounterIncrement "c" "n2" 1⟩,
      ⟨"a1", 9, ⟨[]⟩, Operation.OrSetRemove "k" "y"⟩]⟩ (by decide)

/-! ### Claim C8: the conflict detector -/

theorem tsnLE_refl (a : ConflictOperation) : tsnLE a a :=
  Or.inr ⟨rfl, le_refl _⟩

theorem tsnLE_trans {a b c : ConflictOperation} (h1 : tsnLE a b) (h2 : tsnLE b c) :
    tsnLE a c := by
  rcases h1 with h1 | ⟨h1, h1b⟩ <;> rcases h2 with h2 | ⟨h2, h2b⟩
  · exact Or.inl (lt_trans h1 h2)
  · exact Or.inl (h2 ▸ h1)
  · exact Or.inl (h1 ▸ h2)
  · exact Or.inr ⟨h1.trans h2, le_trans h1b h2b⟩

theorem tsnLE_total (a b : ConflictOperation) : tsnLE a b ∨ tsnLE b a := by
  rcases lt_trichotomy a.timestamp b.timestamp with h | h | h
  · exact Or.inl (Or.inl h)
  · rcases le_total a.node_id b.node_id with h2 | h2
    · exact Or.inl (Or.inr ⟨h, h2⟩)
    · exact Or.inr (Or.inr ⟨h.symm, h2⟩)
  · exact Or.inr (Or.inl h)

theorem maxByTsNode_spec :
    ∀ (rest : List ConflictOperation) (c : ConflictOperation),
      maxByTsNode c rest ∈ c :: rest
        ∧ ∀ x ∈ c :: rest, tsnLE x (maxByTsNode c rest) := by
  intro rest
  induction rest with
  | nil =>
    intro c
    refine ⟨List.mem_singleton.mpr rfl, ?_⟩
    intro x hx
    rw [List.mem_singleton] at hx
    rw [hx]
    exact tsnLE_refl _
  | cons y t ih =>
    intro c
    have hstep : maxByTsNode c (y :: t)
        = maxByTsNode (if c.timestamp < y.timestamp
            ∨ (c.timestamp = y.timestamp ∧ c.node_id ≤ y.node_id) then y else c) t := rfl
    by_cases hcy : c.timestamp < y.timestamp
        ∨ (c.timestamp = y.timestamp ∧ c.node_id ≤ y.node_id)
    · rw [hstep, if_pos hcy]
      obtain ⟨hmem, hmax⟩ := ih y
      constructor
      · rcases List.mem_cons.mp hmem with h | h
        · rw [h]
          exact List.mem_cons_of_mem _ (List.mem_cons_self _ _)
        · exact List.mem_cons_of_mem _ (List.mem_cons_of_mem _ h)
      · intro x hx
        rcases List.mem_cons.mp hx with h | h
        · exact tsnLE_trans (h ▸ hcy) (hmax y (List.mem_cons_self _ _))
        · rcases List.mem_cons.mp h with h2 | h2
          · exact h2 ▸ hmax y (List.mem_cons_self _ _)
          · exact hmax x (List.mem_cons_of_mem _ h2)
    · rw [hstep, if_neg hcy]
      obtain ⟨hmem, hmax⟩ := ih c
      constructor
      · rcases List.mem_cons.mp hmem with h | h
        · rw [h]
          exact List.mem_cons_self _ _
        · exact List.mem_cons_of_mem _ (List.mem_cons_of_mem _ h)
      · intro x hx
        rcases List.mem_cons.mp hx with h | h
        · exact h ▸ hmax c (List.mem_cons_self _ _)
        · rcases List.mem_cons.mp h with h2 | h2
          · have hyc : tsnLE y c := by
              rcases tsnLE_total c y with htot | htot
              · exact absurd htot hcy
              · exact htot
            exact tsnLE_trans (h2 ▸ hyc) (hmax c (List.mem_cons_self _ _))
          · exact hmax x (List.mem_cons_of_mem _ h2)

theorem innerPairs_length (ei : OpLogEntry) :
    ∀ (rest : List OpLogEntry) (acc : List ConflictOperation),
      acc.length ≤ (innerPairs ei rest acc).length := by
  intro rest
  induction rest with
  | nil => intro acc; exact le_rfl
  | cons ej t ih =>
    intro acc
    rw [innerPairs]
    refine le_trans ?_ (ih _)
    by_cases hc : concB ei.causal ej.causal = true
    · rw [if_pos hc]
      by_cases he : acc.isEmpty
      · cases mkCOp ei <;> cases mkCOp ej <;> simp [he] <;> omega
      · cases mkCOp ei <;> cases mkCOp ej <;> simp [he] <;> omega
    · rw [if_neg hc]

theorem innerPairs_ne_nil (ei : OpLogEntry) (rest : List OpLogEntry)
    (acc : List ConflictOperation) (h : acc ≠ []) : innerPairs ei rest acc ≠ [] := by
  intro hcontr
  have := innerPairs_length ei rest acc
  rw [hcontr] at this
  simp at this
  exact h this

theorem pairLoop_ne_nil :
    ∀ (es : List OpLogEntry) (acc : List ConflictOperation), acc ≠ [] →
      pairLoop es acc ≠ [] := by
  intro es
  induction es with
  | nil => intro acc h; exact h
  | cons ei t ih =>
    intro acc h
    rw [pairLoop]
    exact ih _ (innerPairs_ne_nil ei t acc h)

theorem innerPairs_nil_empty_iff (ei : OpLogEntry) (hi : (mkCOp ei).isSome = true) :
    ∀ (rest : List OpLogEntry), (hr : ∀ e ∈ rest, (mkCOp e).isSome = true) →
      (innerPairs ei rest [] = [] ↔
        rest.any (fun ej => concB ei.causal ej.causal) = false) := by
  intro rest
  induction rest with
  | nil => simp [innerPairs]
  | cons ej t ih =>
    intro hr
    rw [innerPairs, List.any_cons]
    by_cases hc : concB ei.causal ej.causal = true
    · rw [if_pos hc]
      simp only [hc, Bool.true_or]
      cases hmi : mkCOp ei with
      | none => rw [hmi] at hi; simp at hi
      | some ci =>
        have hj := hr ej (List.mem_cons_self _ _)
        cases hmj : mkCOp ej with
        | none => rw [hmj] at hj; simp at hj
        | some cj =>
          simp only [List.isEmpty_nil, if_pos]
          constructor
          · intro hcontr
            exact absurd hcontr (innerPairs_ne_nil ei t _ (by simp))
          · intro hcontr
            simp at hcontr
    · rw [if_neg hc]
      simp only [Bool.not_eq_true] at hc
      rw [hc, Bool.false_or]
      exact ih (fun e he => hr e (List.mem_cons_of_mem _ he))

theorem pairLoop_nil_empty_iff :
    ∀ (es : List OpLogEntry), (∀ e ∈ es, (mkCOp e).isSome = true) →
      (pairLoop es [] = [] ↔ hasConcPair es = false) := by
  intro es
  induction es with
  | nil => simp [pairLoop, hasConcPair]
  | cons ei t ih =>
    intro hall
    rw [pairLoop, hasConcPair]
    cases hinner : innerPairs ei t [] with
    | nil =>
      have hnoc := (innerPairs_nil_empty_iff ei (hall ei (List.mem_cons_self _ _)) t
        (fun e he => hall e (List.mem_cons_of_mem _ he))).mp hinner
      rw [hnoc, Bool.false_or]
      exact ih (fun e he => hall e (List.mem_cons_of_mem _ he))
    | cons c rest =>
      have hne : pairLoop t (c :: rest) ≠ [] := pairLoop_ne_nil t _ (by simp)
      constructor
      · intro hcontr
        exact absurd hcontr hne
      · intro hcontr
        have : ¬ (t.any (fun ej => concB ei.causal ej.causal) = false) := by
          intro hfalse
          have := (innerPairs_nil_empty_iff ei (hall ei (List.mem_cons_self _ _)) t
            (fun e he => hall e (List.mem_cons_of_mem _ he))).mpr hfalse
          rw [this] at hinner
          exact List.noConfusion hinner
        rw [Bool.or_eq_false_iff] at hcontr
        exact absurd hcontr.1 this

theorem innerPairs_sound (ei : OpLogEntry) :
    ∀ (rest : List OpLogEntry) (acc : List ConflictOperation) (cop : ConflictOperation),
      cop ∈ innerPairs ei rest acc →
      cop ∈ acc ∨ ∃ ej ∈ rest, concB ei.causal ej.causal = true
        ∧ (mkCOp ei = some cop ∨ mkCOp ej = some cop) := by
  intro rest
  induction rest with
  | nil =>
    intro acc cop h
    exact Or.inl h
  | cons ej t ih =>
    intro acc cop h
    rw [innerPairs] at h
    by_cases hc : concB ei.causal ej.causal = true
    · rw [if_pos hc] at h
      rcases ih _ cop h with hmem | ⟨e2, he2, hconc, hfrom⟩
      · -- cop came from the accumulator extended at this step
        have hstep : cop ∈ acc
            ∨ mkCOp ei = some cop ∨ mkCOp ej = some cop := by
          by_cases he : acc.isEmpty
          · cases hmi : mkCOp ei with
            | none =>
              cases hmj : mkCOp ej with
              | none => simp [he, hmi, hmj] at hmem; exact Or.inl hmem
              | some cj =>
                simp only [he, hmi, hmj, if_pos] at hmem
                rcases List.mem_append.mp hmem with h2 | h2
                · exact Or.inl h2
                · rw [List.mem_singleton] at h2
                  exact Or.inr (Or.inr (congrArg some h2.symm))
            | some ci =>
              cases hmj : mkCOp ej with
              | none =>
                simp only [he, hmi, hmj, if_pos] at hmem
                rcases List.mem_append.mp hmem with h2 | h2
                · exact Or.inl h2
                · rw [List.mem_singleton] at h2
                  exact Or.inr (Or.inl (congrArg some h2.symm))
              | some cj =>
                simp only [he, hmi, hmj, if_pos] at hmem
                rcases List.mem_append.mp hmem with h2 | h2
                · rcases List.mem_append.mp h2 with h3 | h3
                  · exact Or.inl h3
                  · rw [List.mem_singleton] at h3
                    exact Or.inr (Or.inl (congrArg some h3.symm))
                · rw [List.mem_singleton] at h2
                  exact Or.inr (Or.inr (congrArg some h2.symm))
          · cases hmj : mkCOp ej with
            | none => simp [he, hmj] at hmem; exact Or.inl hmem
            | some cj =>
              simp only [he, hmj, if_neg, Bool.false_eq_true, not_false_iff] at hmem
              rcases List.mem_append.mp hmem with h2 | h2
              · exact Or.inl h2
              · rw [List.mem_singleton] at h2
                exact Or.inr (Or.inr (congrArg some h2.symm))
        rcases hstep with h2 | h2 | h2
        · exact Or.inl h2
        · exact Or.inr ⟨ej, List.mem_cons_self _ _, hc, Or.inl h2⟩
        · exact Or.inr ⟨ej, List.mem_cons_self _ _, hc, Or.inr h2⟩
      · exact Or.inr ⟨e2, List.mem_cons_of_mem _ he2, hconc, hfrom⟩
    · rw [if_neg hc] at h
      rcases ih _ cop h with hmem | ⟨e2, he2, hconc, hfrom⟩
      · exact Or.inl hmem
      · exact Or.inr ⟨e2, List.mem_cons_of_mem _ he2, hconc, hfrom⟩

theorem pairLoop_sound :
    ∀ (es : List OpLogEntry) (acc : List ConflictOperation) (cop : ConflictOperation),
      cop ∈ pairLoop es acc →
      cop ∈ acc ∨ ∃ e1 ∈ es, ∃ e2 ∈ es, concB e1.causal e2.causal = true
        ∧ (mkCOp e1 = some cop ∨ mkCOp e2 = some cop) := by
  intro es
  induction es with
  | nil =>
    intro acc cop h
    exact Or.inl h
  | cons ei t ih =>
    intro acc cop h
    rw [pairLoop] at h
    rcases ih _ cop h with hmem | ⟨e1, he1, e2, he2, hconc, hfrom⟩
    · rcases innerPairs_sound ei t acc cop hmem with h2 | ⟨ej, hej, hconc, hfrom⟩
      · exact Or.inl h2
      · exact Or.inr ⟨ei, List.mem_cons_self _ _, ej, List.mem_cons_of_mem _ hej,
          hconc, hfrom⟩
    · exact Or.inr ⟨e1, List.mem_cons_of_mem _ he1, e2, List.mem_cons_of_mem _ he2,
        hconc, hfrom⟩

theorem lwwWritesFor_isSome (log : OpLog) (key : String) :
    ∀ e ∈ lwwWritesFor log key, (mkCOp e).isSome = true := by
  intro e he
  rw [lwwWritesFor, List.mem_filter] at he
  obtain ⟨_, hcond⟩ := he
  cases hop : e.op <;> rw [hop] at hcond <;> simp at hcond
  rw [mkCOp, hop]
  rfl

theorem hasConcPair_short (es : List OpLogEntry) (h : ¬ es.length > 1) :
    hasConcPair es = false := by
  cases es with
  | nil => rfl
  | cons e t =>
    cases t with
    | nil => rfl
    | cons e2 t2 => simp at h

/-- C8 (amended): for every op log and key, the conflict detector emits a
record exactly when some pair of the key's LWW-set entries have concurrent
causal clocks; every operation listed in the record is derived from an
entry of that key that belongs to a concurrent pair (though an entry may be
listed several times and a concurrent entry may be omitted); and the
resolution names the writer of a listed operation that is maximal in the
lexicographic `(ts, writer)` order among the listed ones. -/
theorem get_conflicts_record_spec (log : OpLog) (key : String) :
    ((conflictFor log key).isSome = true ↔ hasConcPair (lwwWritesFor log key) = true)
    ∧ ∀ r, conflictFor log key = some r →
        (∀ cop ∈ r.operations,
          ∃ e1 ∈ lwwWritesFor log key, ∃ e2 ∈ lwwWritesFor log key,
            concB e1.causal e2.causal = true
              ∧ (mkCOp e1 = some cop ∨ mkCOp e2 = some cop))
        ∧ ∃ w ∈ r.operations, r.winner_node = w.node_id
            ∧ ∀ x ∈ r.operations, tsnLE x w := by
  constructor
  · by_cases hlen : (lwwWritesFor log key).length > 1
    · rw [conflictFor]
      simp only [hlen, if_pos]
      cases hpl : pairLoop (lwwWritesFor log key) [] with
      | nil =>
        simp only [Option.isSome_none, Bool.false_eq_true, false_iff]
        rw [(pairLoop_nil_empty_iff _ (lwwWritesFor_isSome log key)).mp hpl]
        simp
      | cons c rest =>
        simp only [Option.isSome_some, true_iff]
        cases hcp : hasConcPair (lwwWritesFor log key) with
        | true => rfl
        | false =>
          have := (pairLoop_nil_empty_iff _ (lwwWritesFor_isSome log key)).mpr hcp
          rw [hpl] at this
          exact List.noConfusion this
    · rw [conflictFor]
      simp only [hlen, if_neg, not_false_iff]
      rw [hasConcPair_short _ hlen]
      simp
  · intro r hr
    rw [conflictFor] at hr
    by_cases hlen : (lwwWritesFor log key).length > 1
    · simp only [hlen, if_pos] at hr
      cases hpl : pairLoop (lwwWritesFor log key) [] with
      | nil =>
        rw [hpl] at hr
        exact Option.noConfusion hr
      | cons c rest =>
        rw [hpl] at hr
        rw [Option.some_inj] at hr
        subst hr
        constructor
        · intro cop hcop
          have hmem : cop ∈ pairLoop (lwwWritesFor log key) [] := by
            rw [hpl]
            exact hcop
          rcases pairLoop_sound _ [] cop hmem with h | h
          · simp at h
          · exact h
        · obtain ⟨hmem, hmax⟩ := maxByTsNode_spec rest c
          exact ⟨maxByTsNode c rest, hmem, rfl, hmax⟩
    · simp only [hlen, if_neg, not_false_iff] at hr
      exact Option.noConfusion hr

/-- C8 counterexample: on `conflictProbeLog` the second write (value "B")
is concurrent with the third, yet its `(ts, writer, value)` triple is
absent from the emitted record, while the third write's triple is listed
twice — refuting "lists all unique triples ... each exactly once". -/
theorem get_conflicts_claim_cex :
    conflictFor conflictProbeLog "k"
      = some ⟨"k", "LWWRegister 并发写入",
          [⟨"i0", 100, "n1", "A"⟩, ⟨"i2", 100, "n2", "C"⟩, ⟨"i2", 100, "n2", "C"⟩],
          "n2"⟩
    ∧ concB (VectorClock.mk [("n1", 2)]) ⟨[("n2", 1)]⟩ = true
    ∧ (⟨"i1", 100, ⟨[("n1", 2)]⟩, Operation.LwwRegisterSet "k" "B" 100 "n1"⟩ : OpLogEntry)
        ∈ lwwWritesFor conflictProbeLog "k"
    ∧ (∀ cop ∈ [(⟨"i0", 100, "n1", "A"⟩ : ConflictOperation), ⟨"i2", 100, "n2", "C"⟩,
          ⟨"i2", 100, "n2", "C"⟩], ¬ (cop.timestamp = 100 ∧ cop.node_id = "n1" ∧ cop.value = "B"))
    ∧ ¬ ([(⟨"i0", 100, "n1", "A"⟩ : ConflictOperation), ⟨"i2", 100, "n2", "C"⟩,
          ⟨"i2", 100, "n2", "C"⟩].Nodup) := by
  refine ⟨by decide, by decide, by decide, by decide, ?_⟩
  decide

/-- The amended conflict rule evaluated on the probe log: a record is
emitted because a concurrent pair exists. -/
theorem get_conflicts_record_spec_witness :
    (conflictFor conflictProbeLog "k").isSome = true :=
  (get_conflicts_record_spec conflictProbeLog "k").1.mpr (by decide)

/-! ### Claim C1: digest commutativity of `SyncState::merge` -/

theorem sameVariantB_symm (x y : CRDTValue) : sameVariantB x y = sameVariantB y x := by
  cases x <;> cases y <;> rfl

theorem lwwAgreeB_symm (x y : CRDTValue) (h : lwwAgreeB x y = true) :
    lwwAgreeB y x = true := by
  cases x <;> cases y <;> first
    | rfl
    | (rw [lwwAgreeB, decide_eq_true_eq] at h ⊢
       intro h1 h2
       exact (h h1.symm h2.symm).symm)

set_option maxRecDepth 100000 in
/-- C1 counterexample: two reachable states whose registers at the same key
carry equal `(timestamp, writer)` but different values.  Each side of the
mutual merge keeps its own value, so the two digests differ. -/
theorem sync_state_merge_digest_claim_cex :
    Reachable cexLwwA ∧ Reachable cexLwwB
      ∧ (cexLwwB.merge cexLwwA).state_hash ≠ (cexLwwA.merge cexLwwB).state_hash :=
  ⟨Reachable.apply_operation _ _ _ _ (Reachable.new _),
    Reachable.apply_operation _ _ _ _ (Reachable.new _),
    by decide⟩

/-- C1 (amended): for reachable states `a` and `b`, merging `a` into a copy
of `b` and merging `b` into a copy of `a` yield equal `state_hash` digests,
provided entries stored at a common key have the same CRDT variant, and LWW
registers at a common key with equal `(timestamp, writer)` agree on the
value. -/
theorem sync_state_merge_digest_commutes (a b : SyncState)
    (ha : Reachable a) (hb : Reachable b)
    (hvar : ∀ p ∈ a.crdt_map.entries, ∀ q ∈ b.crdt_map.entries,
      p.1 = q.1 → sameVariantB p.2 q.2 = true)
    (hlww : ∀ p ∈ a.crdt_map.entries, ∀ q ∈ b.crdt_map.entries,
      p.1 = q.1 → lwwAgreeB p.2 q.2 = true) :
    (b.merge a).state_hash = (a.merge b).state_hash := by
  obtain ⟨hsa, hva⟩ := reach_wf a ha
  obtain ⟨hsb, hvb⟩ := reach_wf b hb
  have hent : crdtEntriesMerge b.crdt_map.entries a.crdt_map.entries
      = crdtEntriesMerge a.crdt_map.entries b.crdt_map.entries := by
    apply crdtEntriesMerge_comm _ _ hsb hvb hsa hva
    · intro p hp q hq hpq
      rw [sameVariantB_symm]
      exact hvar q hq p hp hpq.symm
    · intro p hp q hq hpq
      exact lwwAgreeB_symm _ _ (hlww q hq p hp hpq.symm)
  show (b.merge a).crdt_map.state_hash = (a.merge b).crdt_map.state_hash
  rw [CRDTMap.state_hash, CRDTMap.state_hash, CRDTMap.hashInput, CRDTMap.hashInput]
  have h1 : (b.merge a).crdt_map.entries = (a.merge b).crdt_map.entries := hent
  rw [h1]

/-- The amended digest commutativity evaluated on two counter states. -/
theorem sync_state_merge_digest_commutes_witness :
    (commWitB.merge commWitA).state_hash = (commWitA.merge commWitB).state_hash :=
  sync_state_merge_digest_commutes commWitA commWitB
    (Reachable.apply_operation _ _ _ _ (Reachable.new _))
    (Reachable.apply_operation _ _ _ _ (Reachable.new _))
    (by decide) (by decide)

/-! ### Claim C3: the canonical digest byte sequence -/

theorem foldl_append2_eq_flatMap {α : Type} (f g : α → List Byte) :
    ∀ (l : List α) (acc : List Byte),
      l.foldl (fun acc x => acc ++ f x ++ g x) acc
        = acc ++ l.flatMap (fun x => f x ++ g x) := by
  intro l
  induction l with
  | nil => intro acc; simp
  | cons x t ih =>
    intro acc
    rw [List.foldl_cons, ih, List.flatMap_cons]
    simp [List.append_assoc]

theorem foldl_append1_eq_flatMap {α : Type} (f : α → List Byte) :
    ∀ (l : List α) (acc : List Byte),
      l.foldl (fun acc x => acc ++ f x) acc = acc ++ l.flatMap f := by
  intro l
  induction l with
  | nil => intro acc; simp
  | cons x t ih =>
    intro acc
    rw [List.foldl_cons, ih, List.flatMap_cons]
    simp [List.append_assoc]

theorem gcounter_hashInput_canonical (c : GCounter) :
    c.hashInput = gcounterCanonicalBytes c :=
  (foldl_append2_eq_flatMap (fun p : String × Nat => strBytes p.1)
    (fun p : String × Nat => le8 p.2) (sortByL keyLE c.counts) []).trans
    (List.nil_append _)

theorem valueHashBytes_canonical (v : CRDTValue) :
    valueHashBytes v = valueCanonicalBytes v := by
  cases v with
  | GCounter c =>
    rw [valueHashBytes, valueCanonicalBytes, GCounter.state_hash,
      gcounter_hashInput_canonical]
  | PNCounter c =>
    rw [valueHashBytes, valueCanonicalBytes, PNCounter.state_hash, PNCounter.hashInput,
      GCounter.state_hash, GCounter.state_hash, gcounter_hashInput_canonical,
      gcounter_hashInput_canonical]
  | LWWRegister r => rfl
  | ORSet s =>
    exact (foldl_append1_eq_flatMap strBytes
      (sortByL (fun a b => decide (a ≤ b)) s.elements) []).trans (List.nil_append _)

set_option maxRecDepth 100000 in
/-- C3 counterexample: for the single-entry map `{"c" ↦ GCounter {n: 1}}`,
`state_hash` differs from the hex SHA-256 of the byte sequence the spec
describes, because the implementation feeds the GCounter's hex-encoded
nested digest into the outer hash rather than the raw node/count bytes. -/
theorem crdt_map_state_hash_claim_cex :
    CRDTMap.state_hash ⟨[("c", CRDTValue.GCounter ⟨[("n", 1)]⟩)], ⟨[]⟩⟩
      ≠ hexEncode (sha256 (specMapBytes ⟨[("c", CRDTValue.GCounter ⟨[("n", 1)]⟩)], ⟨[]⟩⟩)) := by
  decide

/-- C3 (amended): `state_hash` is the hex-encoded SHA-256 of the canonical
byte sequence that iterates entries in ascending key order and appends, per
entry, the UTF-8 key bytes followed by the per-variant encoding — where a
GCounter entry contributes the ASCII bytes of the hex-encoded SHA-256 of
its raw `(node, count as 8 little-endian bytes)` sequence in ascending node
order, not those raw bytes themselves. -/
theorem crdt_map_state_hash_canonical (m : CRDTMap) :
    m.state_hash = hexEncode (sha256 (mapCanonicalBytes m)) := by
  have h1 : m.hashInput
      = (sortByL keyLE m.entries).flatMap (fun p => strBytes p.1 ++ valueHashBytes p.2) :=
    (foldl_append2_eq_flatMap (fun p : String × CRDTValue => strBytes p.1)
      (fun p : String × CRDTValue => valueHashBytes p.2)
      (sortByL keyLE m.entries) []).trans (List.nil_append _)
  have h2 : mapCanonicalBytes m
      = (sortByL keyLE m.entries).flatMap (fun p => strBytes p.1 ++ valueHashBytes p.2) := by
    rw [mapCanonicalBytes,
      show valueCanonicalBytes = valueHashBytes from (funext valueHashBytes_canonical).symm]
  rw [CRDTMap.state_hash, h1, h2]
